import Mathlib

/-!
Verification of the diffomatic automatic-differentiation engine.

The development shallowly embeds the two subsystems of the repository:

* forward mode (`src/forward.rs`, with the earlier draft in `src/lib.rs`):
  dual numbers `DualScalar` with arithmetic operators, and the drivers
  `derivative`, `gradient` and `jacobian`;
* reverse mode (`src/reverse.rs`): an append-only tape of `Node` records,
  `Var` handles whose operators append to the tape, `backprop`, and `Grad`.

`f64` is modelled by `ℚ` (an exact field with total division, `q / 0 = 0`);
the tape's `RefCell<Vec<Node>>` state is passed explicitly, so every
tape-mutating Rust method becomes a function `... → Tape × Var`.
Rust indexing that would panic out of range is modelled by `Option`
(for `Grad::wrt`) or by default-valued reads on paths the programs
never take for in-range data.
-/

namespace Diffomatic

/-- `DualScalar { v: f64, dv: f64 }` from `forward.rs`. -/
structure DualScalar where
  v : ℚ
  dv : ℚ
  deriving DecidableEq, Repr

/-- `impl Add for DualScalar`: `v = a.v + b.v`, `dv = a.dv + b.dv`. -/
def DualScalar.add (a b : DualScalar) : DualScalar :=
  ⟨a.v + b.v, a.dv + b.dv⟩

/-- `impl Sub for DualScalar`: `v = a.v - b.v`, `dv = a.dv - b.dv`. -/
def DualScalar.sub (a b : DualScalar) : DualScalar :=
  ⟨a.v - b.v, a.dv - b.dv⟩

/-- `impl Mul for DualScalar`: `v = a.v * b.v`, `dv = a.dv * b.v + a.v * b.dv`. -/
def DualScalar.mul (a b : DualScalar) : DualScalar :=
  ⟨a.v * b.v, a.dv * b.v + a.v * b.dv⟩

/-- `impl Div for DualScalar`:
`v = a.v / b.v`, `dv = (a.dv * b.v - a.v * b.dv) / (b.v * b.v)`. -/
def DualScalar.div (a b : DualScalar) : DualScalar :=
  ⟨a.v / b.v, (a.dv * b.v - a.v * b.dv) / (b.v * b.v)⟩

/-- `impl PartialEq for DualScalar`: `self.v == other.v` (the `dv` field is
not compared). -/
def DualScalar.eqv (a b : DualScalar) : Bool :=
  decide (a.v = b.v)

/-- `DualScalar::deriv`: returns the `dv` field. -/
def DualScalar.deriv (a : DualScalar) : ℚ :=
  a.dv

/-- `Node { partials: [f64; 2], parents: [usize; 2] }` from `reverse.rs`.
The two recorded partial derivatives (`partials` in the source) are the
field `pds`. -/
structure Node where
  pds : ℚ × ℚ
  parents : ℕ × ℕ
  deriving DecidableEq, Repr

/-- `Tape { nodes: RefCell<Vec<Node>> }`; the interior mutability is
modelled by explicit state passing. -/
structure Tape where
  nodes : List Node
  deriving DecidableEq, Repr

/-- `Var { tape: &Tape, index: usize, v: f64 }`; the tape back-reference is
passed explicitly to the operations instead. -/
structure Var where
  index : ℕ
  v : ℚ
  deriving DecidableEq, Repr

/-- `Tape::var`: push a leaf node `{partials: [0,0], parents: [len,len]}`
and return the bound `Var`. -/
def Tape.var (t : Tape) (value : ℚ) : Tape × Var :=
  let len := t.nodes.length
  (⟨t.nodes ++ [⟨(0, 0), (len, len)⟩]⟩, ⟨len, value⟩)

/-- `Tape::unary_op`: push `{partials: [partial, 0], parents: [index, len]}`
(the right parent points at the new node itself) and return the new `Var`. -/
def Tape.unaryOp (t : Tape) (p : ℚ) (index : ℕ) (newValue : ℚ) : Tape × Var :=
  let len := t.nodes.length
  (⟨t.nodes ++ [⟨(p, 0), (index, len)⟩]⟩, ⟨len, newValue⟩)

/-- `Tape::binary_op`: push
`{partials: [lhs_partial, rhs_partial], parents: [lhs_index, rhs_index]}`
and return the new `Var`. -/
def Tape.binaryOp (t : Tape) (pLhs pRhs : ℚ) (lhsIndex rhsIndex : ℕ)
    (newValue : ℚ) : Tape × Var :=
  let len := t.nodes.length
  (⟨t.nodes ++ [⟨(pLhs, pRhs), (lhsIndex, rhsIndex)⟩]⟩, ⟨len, newValue⟩)

/-- `impl Add for Var`: `binary_op(1.0, 1.0, self.index, rhs.index, self.v + rhs.v)`. -/
def Var.add (x y : Var) (t : Tape) : Tape × Var :=
  Tape.binaryOp t 1 1 x.index y.index (x.v + y.v)

/-- `impl Sub for Var`: `binary_op(1.0, -1.0, self.index, rhs.index, self.v - rhs.v)`. -/
def Var.sub (x y : Var) (t : Tape) : Tape × Var :=
  Tape.binaryOp t 1 (-1) x.index y.index (x.v - y.v)

/-- `impl Neg for Var`: `unary_op(-1.0, self.index, -self.v)`. -/
def Var.neg (x : Var) (t : Tape) : Tape × Var :=
  Tape.unaryOp t (-1) x.index (-x.v)

/-- `impl Mul for Var`: `binary_op(rhs.v, self.v, self.index, rhs.index, self.v * rhs.v)`. -/
def Var.mul (x y : Var) (t : Tape) : Tape × Var :=
  Tape.binaryOp t y.v x.v x.index y.index (x.v * y.v)

/-- `impl Mul<Var> for f64`: `unary_op(self, rhs.index, self * rhs.v)`. -/
def Var.smul (c : ℚ) (x : Var) (t : Tape) : Tape × Var :=
  Tape.unaryOp t c x.index (c * x.v)

/-- `impl Div for Var`:
`binary_op(1.0 / rhs.v, -self.v / (rhs.v * rhs.v), self.index, rhs.index, self.v / rhs.v)`. -/
def Var.div (x y : Var) (t : Tape) : Tape × Var :=
  Tape.binaryOp t (1 / y.v) (-x.v / (y.v * y.v)) x.index y.index (x.v / y.v)

/-- The default node used for (never-taken) out-of-range tape reads. -/
def Node.dflt : Node := ⟨(0, 0), (0, 0)⟩

/-- One iteration of the backprop loop body on the adjoint array `g` for
node `nd` at tape position `i`:
`grad[parents.0] += partials.0 * grad[i]` then
`grad[parents.1] += partials.1 * grad[i]` (the second read of `grad[i]`
happens after the first write, exactly as in the source). -/
def stepNode (g : List ℚ) (nd : Node) (i : ℕ) : List ℚ :=
  let g1 := g.set nd.parents.1 (g.getD nd.parents.1 0 + nd.pds.1 * g.getD i 0)
  g1.set nd.parents.2 (g1.getD nd.parents.2 0 + nd.pds.2 * g1.getD i 0)

/-- `Grad { grad: Vec<f64> }`. -/
structure Grad where
  grad : List ℚ
  deriving DecidableEq, Repr

/-- `Var::backprop`: allocate `vec![0.0; tape_len]`, seed
`grad[self.index] = 1.0`, then run the loop body for `i` in
`(0..tape_len).rev()`. -/
def Var.backprop (x : Var) (t : Tape) : Grad :=
  let tapeLen := t.nodes.length
  let g0 := (List.replicate tapeLen (0 : ℚ)).set x.index 1
  ⟨((List.range tapeLen).reverse).foldl
      (fun g i => stepNode g (t.nodes.getD i Node.dflt) i) g0⟩

/-- `Grad::wrt`: `self.grad[var.index]`; Rust indexing panics when
`var.index` is out of range, modelled by `none`. -/
def Grad.wrt (g : Grad) (x : Var) : Option ℚ :=
  g.grad.get? x.index

/-! ### The backprop algorithm as the specification words it

`bpLoop` is the countdown loop of the spec sentence: "for node index `i`
from the last inserted down to the first, add `node[i].partials[0] *
adjoint[i]` into `adjoint[node[i].parents[0]]` and `node[i].partials[1] *
adjoint[i]` into `adjoint[node[i].parents[1]]`".  `backpropSpec` assembles
the full description (zero-filled array of tape length, seed, countdown
scan) so it can be compared with the translated `Var.backprop`. -/

/-- Countdown loop over node indices `k-1, k-2, ..., 0`, performing the
two adjoint accumulations described in the spec at each index. -/
def bpLoop (t : Tape) : ℕ → List ℚ → List ℚ
  | 0, g => g
  | i + 1, g =>
      let nd := t.nodes.getD i Node.dflt
      let g1 := g.set nd.parents.1 (g.getD nd.parents.1 0 + nd.pds.1 * g.getD i 0)
      let g2 := g1.set nd.parents.2 (g1.getD nd.parents.2 0 + nd.pds.2 * g1.getD i 0)
      bpLoop t i g2

/-- Backprop exactly as the specification describes it: a zero-filled
adjoint array of the current tape length, the seed `adjoint[var.index] =
1.0`, then a single reverse linear scan from index `L-1` down to `0`. -/
def backpropSpec (x : Var) (t : Tape) : Grad :=
  let l := t.nodes.length
  ⟨bpLoop t l ((List.replicate l (0 : ℚ)).set x.index 1)⟩

/-! ### Forward-mode drivers

`derivative`, `gradient` and `jacobian` from `forward.rs`, plus the
earlier draft of `jacobian` from `lib.rs`.  The mutation of the `inputs`
vector (`inputs[i].dv = 1.;` / `inputs[i].dv = 0.;`) is modelled by
`setDv`, threading the vector through the loop explicitly.  Variants
suffixed `C` additionally count the number of evaluations of `func`,
incrementing once per call site execution. -/

/-- `derivative(func, x0)`: evaluate `func` on the seeded dual
`{v: x0, dv: 1.0}` and return the `dv` field. -/
def derivative (func : DualScalar → DualScalar) (x0 : ℚ) : ℚ :=
  (func ⟨x0, 1⟩).deriv

/-- `x0.iter().map(|&v| DualScalar { v, dv: 0. }).collect()`. -/
def dualize (x0 : List ℚ) : List DualScalar :=
  x0.map fun v => ⟨v, 0⟩

/-- `inputs[i].dv = d;` — overwrite the derivative channel of entry `i`,
leaving the value channel unchanged (no-op out of range, a path the
drivers never take). -/
def setDv : List DualScalar → ℕ → ℚ → List DualScalar
  | [], _, _ => []
  | x :: xs, 0, d => ⟨x.v, d⟩ :: xs
  | x :: xs, n + 1, d => x :: setDv xs n d

/-- The loop body of `gradient`: for each index `i`, set channel `i` to
`1.0`, evaluate `func` once, record `deriv()`, reset channel `i` to `0.0`,
and continue with the mutated inputs vector. -/
def gradLoop (func : List DualScalar → DualScalar) :
    List ℕ → List DualScalar → List ℚ
  | [], _ => []
  | i :: rest, ins =>
      let ins1 := setDv ins i 1
      let p := (func ins1).deriv
      let ins2 := setDv ins1 i 0
      p :: gradLoop func rest ins2

/-- `gradient(func, x0)` from `forward.rs` (and identically `lib.rs`). -/
def gradient (func : List DualScalar → DualScalar) (x0 : List ℚ) : List ℚ :=
  gradLoop func (List.range x0.length) (dualize x0)

/-- `gradLoop` instrumented with an evaluation counter: the second
component counts executions of the `func(&inputs)` call site. -/
def gradLoopC (func : List DualScalar → DualScalar) :
    List ℕ → List DualScalar → List ℚ × ℕ
  | [], _ => ([], 0)
  | i :: rest, ins =>
      let ins1 := setDv ins i 1
      let p := (func ins1).deriv
      let ins2 := setDv ins1 i 0
      let r := gradLoopC func rest ins2
      (p :: r.1, r.2 + 1)

/-- `gradient` instrumented with an evaluation counter. -/
def gradientC (func : List DualScalar → DualScalar) (x0 : List ℚ) :
    List ℚ × ℕ :=
  gradLoopC func (List.range x0.length) (dualize x0)

/-! ### Jacobian assembly

`forward.rs` builds the `M × N` matrix column by column
(`column_iter_mut`): seed channel `i`, call `func` once, write the `M`
derivative fields as column `i`.  The earlier draft in `lib.rs` instead
builds it row by row (`row_iter_mut`), calling `gradient` once per output
row.  The matrix collaborator (an opaque zero-initialised container with
`(row, col)` reads and writes) is modelled as a list of rows. -/

/-- Write a scalar at `(row, col)` of the matrix container. -/
def setEntry (m : List (List ℚ)) (r c : ℕ) (x : ℚ) : List (List ℚ) :=
  m.set r ((m.getD r []).set c x)

/-- Read a scalar at `(row, col)` of the matrix container. -/
def entry (m : List (List ℚ)) (r c : ℕ) : ℚ :=
  (m.getD r []).getD c 0

/-- Inner loop of `forward.rs::jacobian`:
`for j in 0..M { col[j] = col_result[j].dv; }` for column `i`. -/
def writeCol (mrows : ℕ) (m : List (List ℚ)) (i : ℕ)
    (colR : List DualScalar) : List (List ℚ) :=
  (List.range mrows).foldl (fun m j => setEntry m j i ((colR.getD j ⟨0, 0⟩).dv)) m

/-- Outer loop of `forward.rs::jacobian`: for each column index `i`, seed
channel `i`, evaluate `func` once, write its derivative fields as column
`i`, reset channel `i`. -/
def jacLoop (func : List DualScalar → List DualScalar) (mrows : ℕ) :
    List ℕ → List DualScalar → List (List ℚ) → List (List ℚ)
  | [], _, m => m
  | i :: rest, ins, m =>
      let ins1 := setDv ins i 1
      let colR := func ins1
      let m1 := writeCol mrows m i colR
      let ins2 := setDv ins1 i 0
      jacLoop func mrows rest ins2 m1

/-- `jacobian(func, x0)` from `forward.rs` (column-wise); the matrix is
`M × N` with `N = x0.length`, pre-filled with zero. -/
def jacobian (mrows : ℕ) (func : List DualScalar → List DualScalar)
    (x0 : List ℚ) : List (List ℚ) :=
  jacLoop func mrows (List.range x0.length) (dualize x0)
    (List.replicate mrows (List.replicate x0.length 0))

/-- `jacLoop` instrumented with an evaluation counter for `func`. -/
def jacLoopC (func : List DualScalar → List DualScalar) (mrows : ℕ) :
    List ℕ → List DualScalar → List (List ℚ) → List (List ℚ) × ℕ
  | [], _, m => (m, 0)
  | i :: rest, ins, m =>
      let ins1 := setDv ins i 1
      let colR := func ins1
      let m1 := writeCol mrows m i colR
      let ins2 := setDv ins1 i 0
      let r := jacLoopC func mrows rest ins2 m1
      (r.1, r.2 + 1)

/-- `forward.rs::jacobian` instrumented with an evaluation counter. -/
def jacobianC (mrows : ℕ) (func : List DualScalar → List DualScalar)
    (x0 : List ℚ) : List (List ℚ) × ℕ :=
  jacLoopC func mrows (List.range x0.length) (dualize x0)
    (List.replicate mrows (List.replicate x0.length 0))

/-- Outer loop of `lib.rs::jacobian`: for each output row `i`, call
`gradient` on the scalar function `x ↦ func(x)[i]` and copy it into row
`i` (`row.copy_from_slice(&row_gradient)`). -/
def jacLibLoop (func : List DualScalar → List DualScalar) (x0 : List ℚ) :
    List ℕ → List (List ℚ) → List (List ℚ)
  | [], m => m
  | i :: rest, m =>
      let rowGradient := gradient (fun x => (func x).getD i ⟨0, 0⟩) x0
      jacLibLoop func x0 rest (m.set i rowGradient)

/-- `jacobian(func, x0)` from `lib.rs` (row-wise, via repeated `gradient`). -/
def jacobianLib (mrows : ℕ) (func : List DualScalar → List DualScalar)
    (x0 : List ℚ) : List (List ℚ) :=
  jacLibLoop func x0 (List.range mrows)
    (List.replicate mrows (List.replicate x0.length 0))

/-- `jacLibLoop` instrumented with the evaluation counter of the
underlying `gradient` calls. -/
def jacLibLoopC (func : List DualScalar → List DualScalar) (x0 : List ℚ) :
    List ℕ → List (List ℚ) → List (List ℚ) × ℕ
  | [], m => (m, 0)
  | i :: rest, m =>
      let rg := gradientC (fun x => (func x).getD i ⟨0, 0⟩) x0
      let r := jacLibLoopC func x0 rest (m.set i rg.1)
      (r.1, r.2 + rg.2)

/-- `lib.rs::jacobian` instrumented with an evaluation counter. -/
def jacobianLibC (mrows : ℕ) (func : List DualScalar → List DualScalar)
    (x0 : List ℚ) : List (List ℚ) × ℕ :=
  jacLibLoopC func x0 (List.range mrows)
    (List.replicate mrows (List.replicate x0.length 0))

/-- All in-range rows of the matrix container have length `n`. -/
def RowLen (m : List (List ℚ)) (n : ℕ) : Prop :=
  ∀ j, j < m.length → (m.getD j []).length = n

/-- The Jacobian test function of the repository: `(x, y) ↦ [x·x·y, x + y]`
(`R² → R²`). -/
def fTest : List DualScalar → List DualScalar := fun xs =>
  [DualScalar.mul (DualScalar.mul (xs.getD 0 ⟨0, 0⟩) (xs.getD 0 ⟨0, 0⟩))
      (xs.getD 1 ⟨0, 0⟩),
   DualScalar.add (xs.getD 0 ⟨0, 0⟩) (xs.getD 1 ⟨0, 0⟩)]

/-! ### Tapes built through the public interface

`Built t vs` holds when tape `t` together with the list `vs` of all `Var`
handles returned so far is reachable from `Tape::new` by the public
operations: `tape.var` and the six `Var` operators, each applied to
previously returned handles. -/

inductive Built : Tape → List Var → Prop where
  | new : Built ⟨[]⟩ []
  | varStep (t : Tape) (vs : List Var) (v : ℚ) : Built t vs →
      Built (Tape.var t v).1 ((Tape.var t v).2 :: vs)
  | addStep (t : Tape) (vs : List Var) (x y : Var) : Built t vs →
      x ∈ vs → y ∈ vs → Built (Var.add x y t).1 ((Var.add x y t).2 :: vs)
  | subStep (t : Tape) (vs : List Var) (x y : Var) : Built t vs →
      x ∈ vs → y ∈ vs → Built (Var.sub x y t).1 ((Var.sub x y t).2 :: vs)
  | mulStep (t : Tape) (vs : List Var) (x y : Var) : Built t vs →
      x ∈ vs → y ∈ vs → Built (Var.mul x y t).1 ((Var.mul x y t).2 :: vs)
  | divStep (t : Tape) (vs : List Var) (x y : Var) : Built t vs →
      x ∈ vs → y ∈ vs → Built (Var.div x y t).1 ((Var.div x y t).2 :: vs)
  | negStep (t : Tape) (vs : List Var) (x : Var) : Built t vs →
      x ∈ vs → Built (Var.neg x t).1 ((Var.neg x t).2 :: vs)
  | smulStep (t : Tape) (vs : List Var) (c : ℚ) (x : Var) : Built t vs →
      x ∈ vs → Built (Var.smul c x t).1 ((Var.smul c x t).2 :: vs)

/-- The invariant exactly as claim C7 states it: both parent indices
strictly precede the node's own index, except for leaf nodes, which have
both parents equal to the own index and partials `0.0`. -/
def ClaimedInv (t : Tape) : Prop :=
  ∀ i, i < t.nodes.length →
    ((t.nodes.getD i Node.dflt).parents.1 < i ∧
       (t.nodes.getD i Node.dflt).parents.2 < i) ∨
    ((t.nodes.getD i Node.dflt).parents.1 = i ∧
       (t.nodes.getD i Node.dflt).parents.2 = i ∧
       (t.nodes.getD i Node.dflt).pds = (0, 0))

/-- The invariant the code actually maintains: as the claim, plus the
unary-operation case — first parent strictly preceding, second parent a
self-reference whose partial is `0.0`. -/
def AmendedInv (t : Tape) : Prop :=
  ∀ i, i < t.nodes.length →
    ((t.nodes.getD i Node.dflt).parents.1 < i ∧
       (t.nodes.getD i Node.dflt).parents.2 < i) ∨
    ((t.nodes.getD i Node.dflt).parents.1 = i ∧
       (t.nodes.getD i Node.dflt).parents.2 = i ∧
       (t.nodes.getD i Node.dflt).pds = (0, 0)) ∨
    ((t.nodes.getD i Node.dflt).parents.1 < i ∧
       (t.nodes.getD i Node.dflt).parents.2 = i ∧
       (t.nodes.getD i Node.dflt).pds.2 = 0)

/-- A concrete interface-built tape: `Tape::new`, then `x = tape.var(1.0)`. -/
def cxT1 : Tape × Var := Tape.var ⟨[]⟩ 1

/-- The tape of `cxT1` extended by the unary operation `z = -x`. -/
def cxT2 : Tape × Var := Var.neg cxT1.2 cxT1.1

/-! ### Backprop as a transformation of adjoint functions

To reason about the reverse scan compositionally, the adjoint array is
viewed as a function `ℕ → ℚ` (`m ↦ grad.getD m 0`) and the loop as a fold
of per-node steps over a list of indices.  `scan_bridge` relates this
view to the list-based `Var.backprop` whenever all parent indices are in
range (which the tape invariant guarantees). -/

/-- One backprop step for node `nd` at position `i` on a functional
adjoint vector. -/
def stepFN (nd : Node) (a : ℕ → ℚ) (i : ℕ) : ℕ → ℚ :=
  let a1 := Function.update a nd.parents.1 (a nd.parents.1 + nd.pds.1 * a i)
  Function.update a1 nd.parents.2 (a1 nd.parents.2 + nd.pds.2 * a1 i)

/-- Run backprop steps over the listed indices (left to right), reading
nodes from `T`. -/
def scanIdx (T : List Node) (idxs : List ℕ) (a : ℕ → ℚ) : ℕ → ℚ :=
  idxs.foldl (fun a i => stepFN (T.getD i Node.dflt) a i) a

/-- The indices `hi - 1, hi - 2, ..., lo`, the order in which the reverse
scan visits the region `[lo, hi)`. -/
def revRange (lo hi : ℕ) : List ℕ :=
  (List.range' lo (hi - lo)).reverse

/-! ### Cross-mode consistency

Arithmetic expressions constructible in both modes are exactly those
built from input variables by the four binary operators `+ - * /` (the
only operators `DualScalar` implements; `Var` additionally has unary neg
and scalar multiplication, which have no forward-mode counterpart).
`evalDualE` runs such an expression forward on dual numbers; `recordE`
records it on a reverse-mode tape through the `Var` operators. -/

inductive Expr (n : ℕ) where
  | input : Fin n → Expr n
  | add : Expr n → Expr n → Expr n
  | sub : Expr n → Expr n → Expr n
  | mul : Expr n → Expr n → Expr n
  | div : Expr n → Expr n → Expr n

/-- Forward-mode evaluation through the `DualScalar` operators. -/
def evalDualE {n : ℕ} : Expr n → (Fin n → DualScalar) → DualScalar
  | .input i, ds => ds i
  | .add e1 e2, ds => DualScalar.add (evalDualE e1 ds) (evalDualE e2 ds)
  | .sub e1 e2, ds => DualScalar.sub (evalDualE e1 ds) (evalDualE e2 ds)
  | .mul e1 e2, ds => DualScalar.mul (evalDualE e1 ds) (evalDualE e2 ds)
  | .div e1 e2, ds => DualScalar.div (evalDualE e1 ds) (evalDualE e2 ds)

/-- The plain value of the expression at a point. -/
def valE {n : ℕ} : Expr n → (Fin n → ℚ) → ℚ
  | .input i, xs => xs i
  | .add e1 e2, xs => valE e1 xs + valE e2 xs
  | .sub e1 e2, xs => valE e1 xs - valE e2 xs
  | .mul e1 e2, xs => valE e1 xs * valE e2 xs
  | .div e1 e2, xs => valE e1 xs / valE e2 xs

/-- Dual inputs at the point `xs` with only channel `i` seeded. -/
def seedF {n : ℕ} (xs : Fin n → ℚ) (i : Fin n) : Fin n → DualScalar :=
  fun j => ⟨xs j, if j = i then 1 else 0⟩

/-- The forward-mode partial derivative of the expression with respect to
input `i`: the derivative field computed by the `DualScalar` operators
under seeding of channel `i`. -/
def pdE {n : ℕ} (e : Expr n) (xs : Fin n → ℚ) (i : Fin n) : ℚ :=
  (evalDualE e (seedF xs i)).dv

/-- Reverse-mode recording through the `Var` operators (inputs are
pre-recorded; recording an input appends nothing). -/
def recordE {n : ℕ} : Expr n → Tape → (Fin n → Var) → Tape × Var
  | .input i, t, vsf => (t, vsf i)
  | .add e1 e2, t, vsf =>
      let r1 := recordE e1 t vsf
      let r2 := recordE e2 r1.1 vsf
      Var.add r1.2 r2.2 r2.1
  | .sub e1 e2, t, vsf =>
      let r1 := recordE e1 t vsf
      let r2 := recordE e2 r1.1 vsf
      Var.sub r1.2 r2.2 r2.1
  | .mul e1 e2, t, vsf =>
      let r1 := recordE e1 t vsf
      let r2 := recordE e2 r1.1 vsf
      Var.mul r1.2 r2.2 r2.1
  | .div e1 e2, t, vsf =>
      let r1 := recordE e1 t vsf
      let r2 := recordE e2 r1.1 vsf
      Var.div r1.2 r2.2 r2.1

/-- `T` extends `s`: `T = s ++ d` for some suffix `d`. -/
def TExt (T s : List Node) : Prop :=
  ∃ d, T = s ++ d

/-- Increment a functional adjoint vector by `c` at index `k`. -/
def bump (a : ℕ → ℚ) (k : ℕ) (c : ℚ) : ℕ → ℚ :=
  fun m => if m = k then a m + c else a m

/-- The inductive statement for the reverse-scan / forward-derivative
correspondence: scanning the recorded region of `e` from a seed `c`
placed on `e`'s output deposits, at each prefix index `j`, the seed times
the sum of forward partials of `e` for the inputs recorded at `j`. -/
def ScanSpec {n : ℕ} (e : Expr n) : Prop :=
  ∀ (t : Tape) (vsf : Fin n → Var) (T : List Node) (a : ℕ → ℚ) (c : ℚ),
    (∀ i, (vsf i).index < t.nodes.length) →
    TExt T (recordE e t vsf).1.nodes →
    (∀ m, t.nodes.length ≤ m → m < (recordE e t vsf).1.nodes.length → a m = 0) →
    ∀ j, j < t.nodes.length →
      scanIdx T (revRange t.nodes.length (recordE e t vsf).1.nodes.length)
        (bump a (recordE e t vsf).2.index c) j
      = a j + c * ∑ i : Fin n,
          (if (vsf i).index = j then pdE e (fun k => (vsf k).v) i else 0)

/-- Record the input values on a tape by successive `tape.var` calls,
returning the tape and the list of input `Var` handles in order. -/
def mkInputs : Tape → List ℚ → Tape × List Var
  | t, [] => (t, [])
  | t, v :: rest =>
      let r := Tape.var t v
      let rr := mkInputs r.1 rest
      (rr.1, r.2 :: rr.2)

/-! ### Theorems -/

theorem foldl_revRange_eq_bpLoop (t : Tape) :
    ∀ (k : ℕ) (g : List ℚ),
      ((List.range k).reverse).foldl
        (fun g i => stepNode g (t.nodes.getD i Node.dflt) i) g = bpLoop t k g := by
  intro k
  induction k with
  | zero => intro g; simp [bpLoop]
  | succ n ih =>
      intro g
      rw [List.range_succ, List.reverse_append]
      simp only [List.reverse_singleton, List.singleton_append, List.foldl_cons]
      rw [ih]
      rfl

theorem stepNode_length (g : List ℚ) (nd : Node) (j : ℕ) :
    (stepNode g nd j).length = g.length := by
  simp [stepNode]

theorem foldl_stepNode_length (t : Tape) (idxs : List ℕ) :
    ∀ g : List ℚ,
      (idxs.foldl (fun g i => stepNode g (t.nodes.getD i Node.dflt) i) g).length
        = g.length := by
  induction idxs with
  | nil => intro g; rfl
  | cons i rest ih =>
      intro g
      simp only [List.foldl_cons]
      rw [ih, stepNode_length]

theorem backprop_grad_length (x : Var) (t : Tape) :
    (Var.backprop x t).grad.length = t.nodes.length := by
  unfold Var.backprop
  simp only
  rw [foldl_stepNode_length]
  simp

/-- C2: `Var::backprop`, called on a variable of a tape of length `L`,
allocates a zero-filled adjoint array of length `L`, seeds
`adjoint[var.index] = 1.0`, then for `i` from `L-1` down to `0` adds
`node[i].partials[0] * adjoint[i]` into `adjoint[node[i].parents[0]]` and
`node[i].partials[1] * adjoint[i]` into `adjoint[node[i].parents[1]]`,
returning the resulting array as the `Grad` — a single reverse linear
scan with no graph traversal or topological sort (`backpropSpec` is that
literal countdown description), and the returned adjoint array has
length `L`. -/
theorem backprop_is_single_reverse_scan (x : Var) (t : Tape) :
    Var.backprop x t = backpropSpec x t ∧
      (Var.backprop x t).grad.length = t.nodes.length := by
  refine ⟨?_, backprop_grad_length x t⟩
  show Grad.mk _ = Grad.mk _
  rw [foldl_revRange_eq_bpLoop]

/-- C3: each arithmetic operator on `Var` appends exactly one `Node` whose
parents are the operand indices and whose recorded partials are:
add `(1, 1)`; sub `(1, -1)`; mul `(rhs.v, lhs.v)`;
div `(1/rhs.v, -lhs.v/rhs.v²)`; unary neg `-1` and `f64 * Var` the scalar,
each unary with second partial `0` and second parent the new node's own
index; the returned `Var`'s value combines the operand values by ordinary
arithmetic and its index is the newly appended position. -/
theorem var_ops_append (t : Tape) (x y : Var) (c : ℚ) :
    (Var.add x y t).1.nodes = t.nodes ++ [⟨(1, 1), (x.index, y.index)⟩] ∧
      (Var.add x y t).2 = ⟨t.nodes.length, x.v + y.v⟩ ∧
    (Var.sub x y t).1.nodes = t.nodes ++ [⟨(1, -1), (x.index, y.index)⟩] ∧
      (Var.sub x y t).2 = ⟨t.nodes.length, x.v - y.v⟩ ∧
    (Var.mul x y t).1.nodes = t.nodes ++ [⟨(y.v, x.v), (x.index, y.index)⟩] ∧
      (Var.mul x y t).2 = ⟨t.nodes.length, x.v * y.v⟩ ∧
    (Var.div x y t).1.nodes
        = t.nodes ++ [⟨(1 / y.v, -x.v / (y.v * y.v)), (x.index, y.index)⟩] ∧
      (Var.div x y t).2 = ⟨t.nodes.length, x.v / y.v⟩ ∧
    (Var.neg x t).1.nodes = t.nodes ++ [⟨(-1, 0), (x.index, t.nodes.length)⟩] ∧
      (Var.neg x t).2 = ⟨t.nodes.length, -x.v⟩ ∧
    (Var.smul c x t).1.nodes = t.nodes ++ [⟨(c, 0), (x.index, t.nodes.length)⟩] ∧
      (Var.smul c x t).2 = ⟨t.nodes.length, c * x.v⟩ := by
  refine ⟨rfl, rfl, rfl, rfl, rfl, rfl, rfl, rfl, rfl, rfl, rfl, rfl⟩

/-- C4: the `DualScalar` binary operators compute exactly
add: `v = a.v+b.v, dv = a.dv+b.dv`; sub: `v = a.v-b.v, dv = a.dv-b.dv`;
mul: `v = a.v*b.v, dv = a.dv*b.v + a.v*b.dv`;
div: `v = a.v/b.v, dv = (a.dv*b.v - a.v*b.dv)/(b.v*b.v)`.  Division is a
total operation applying the same formula for a zero-valued denominator
(no signalled error; in the `f64` source the result is then the IEEE-754
`NaN`/`Infinity`, in this exact model it is the total `ℚ` division). -/
theorem dual_ops_formulas (a b : DualScalar) :
    DualScalar.add a b = ⟨a.v + b.v, a.dv + b.dv⟩ ∧
    DualScalar.sub a b = ⟨a.v - b.v, a.dv - b.dv⟩ ∧
    DualScalar.mul a b = ⟨a.v * b.v, a.dv * b.v + a.v * b.dv⟩ ∧
    DualScalar.div a b = ⟨a.v / b.v, (a.dv * b.v - a.v * b.dv) / (b.v * b.v)⟩ := by
  refine ⟨rfl, rfl, rfl, rfl⟩

/-- C8: `Grad.wrt(var)` returns `adjoints[var.index]` whenever `var.index`
is within range of the adjoint array, and fails (models the aborting Rust
index panic as `none`) whenever it is out of range — it never silently
returns `0.0` and never wraps the index. -/
theorem wrt_in_range_or_fail (g : Grad) (x : Var) :
    (x.index < g.grad.length → g.wrt x = some (g.grad.getD x.index 0)) ∧
    (g.grad.length ≤ x.index → g.wrt x = none) := by
  constructor
  · intro h
    unfold Grad.wrt
    rw [List.getD_eq_getElem?_getD]
    rw [List.get?_eq_getElem?]
    rw [List.getElem?_eq_getElem h]
    rfl
  · intro h
    unfold Grad.wrt
    rw [List.get?_eq_getElem?, List.getElem?_eq_none h]

theorem wrt_in_range_or_fail_witness :
    (Grad.wrt ⟨[5, 7]⟩ ⟨1, 0⟩ = some 7) ∧ (Grad.wrt ⟨[5, 7]⟩ ⟨2, 0⟩ = none) :=
  ⟨(wrt_in_range_or_fail ⟨[5, 7]⟩ ⟨1, 0⟩).1 (by decide),
   (wrt_in_range_or_fail ⟨[5, 7]⟩ ⟨2, 0⟩).2 (by decide)⟩

/-- C10: `DualScalar` equality compares only the value fields: `a == b`
holds iff `a.v = b.v`, so two dual numbers with equal values but
different derivatives compare equal. -/
theorem dual_eq_values_only (a b : DualScalar) :
    (DualScalar.eqv a b = true ↔ a.v = b.v) ∧
      DualScalar.eqv ⟨3, 1⟩ ⟨3, 2⟩ = true := by
  refine ⟨?_, by decide⟩
  unfold DualScalar.eqv
  exact decide_eq_true_iff

theorem setDv_setDv (ins : List DualScalar) :
    ∀ (i : ℕ) (d d' : ℚ), setDv (setDv ins i d) i d' = setDv ins i d' := by
  induction ins with
  | nil => intro i d d'; rfl
  | cons x xs ih =>
      intro i d d'
      cases i with
      | zero => rfl
      | succ n => simp [setDv, ih]

theorem setDv_dualize_zero (x0 : List ℚ) :
    ∀ i : ℕ, setDv (dualize x0) i 0 = dualize x0 := by
  induction x0 with
  | nil => intro i; rfl
  | cons v vs ih =>
      intro i
      cases i with
      | zero => rfl
      | succ n => simp [dualize, setDv] at ih ⊢; exact ih n

theorem gradLoop_eq_map (func : List DualScalar → DualScalar) (x0 : List ℚ) :
    ∀ idxs : List ℕ,
      gradLoop func idxs (dualize x0)
        = idxs.map fun i => (func (setDv (dualize x0) i 1)).deriv := by
  intro idxs
  induction idxs with
  | nil => rfl
  | cons i rest ih =>
      simp only [gradLoop, List.map_cons]
      rw [setDv_setDv, setDv_dualize_zero, ih]

theorem gradLoopC_eq (func : List DualScalar → DualScalar) :
    ∀ (idxs : List ℕ) (ins : List DualScalar),
      gradLoopC func idxs ins = (gradLoop func idxs ins, idxs.length) := by
  intro idxs
  induction idxs with
  | nil => intro ins; rfl
  | cons i rest ih =>
      intro ins
      simp [gradLoopC, gradLoop, ih]

theorem gradient_getD (func : List DualScalar → DualScalar) (x0 : List ℚ)
    (i : ℕ) (h : i < x0.length) :
    (gradient func x0).getD i 0 = (func (setDv (dualize x0) i 1)).deriv := by
  unfold gradient
  rw [gradLoop_eq_map]
  rw [List.getD_eq_getElem?_getD]
  rw [List.getElem?_map]
  rw [List.getElem?_range (by simpa using h)]
  rfl

theorem gradient_length (func : List DualScalar → DualScalar) (x0 : List ℚ) :
    (gradient func x0).length = x0.length := by
  unfold gradient
  rw [gradLoop_eq_map]
  simp

/-- C6: `gradient(f, x0)` with `N = x0.length` evaluates `f` exactly `N`
times (the counter of the instrumented `gradientC` equals `N` and its
result is `gradient f x0`); the returned sequence has length `N`, and
component `i` is the derivative field of `f` evaluated on the inputs with
channel `i` seeded to `1.0` and every other channel `0.0` (channel `i`
having been reset to `0.0` again before the next iteration). -/
theorem gradient_correct (func : List DualScalar → DualScalar) (x0 : List ℚ) :
    (gradient func x0).length = x0.length ∧
    gradientC func x0 = (gradient func x0, x0.length) ∧
    (∀ i : ℕ, i < x0.length →
      (gradient func x0).getD i 0 = (func (setDv (dualize x0) i 1)).deriv) := by
  refine ⟨gradient_length func x0, ?_, fun i h => gradient_getD func x0 i h⟩
  unfold gradientC gradient
  rw [gradLoopC_eq]
  simp

theorem gradient_correct_witness :
    (0 : ℕ) < ([(1 : ℚ), 2]).length ∧
    (gradient (fun xs => DualScalar.add (xs.getD 0 ⟨0, 0⟩) (xs.getD 1 ⟨0, 0⟩))
        [1, 2]).getD 0 0
      = ((fun xs => DualScalar.add (xs.getD 0 ⟨0, 0⟩) (xs.getD 1 ⟨0, 0⟩))
          (setDv (dualize [1, 2]) 0 1)).deriv :=
  ⟨by decide,
   (gradient_correct
     (fun xs => DualScalar.add (xs.getD 0 ⟨0, 0⟩) (xs.getD 1 ⟨0, 0⟩))
     [1, 2]).2.2 0 (by decide)⟩

theorem getD_set_self {α : Type} (l : List α) :
    ∀ (n : ℕ) (x d : α), n < l.length → (l.set n x).getD n d = x := by
  induction l with
  | nil => intro n x d h; simp at h
  | cons a as ih =>
      intro n x d h
      cases n with
      | zero => rfl
      | succ k =>
          simp only [List.set_cons_succ, List.getD_cons_succ]
          exact ih k x d (by simpa using h)

theorem getD_set_ne {α : Type} (l : List α) :
    ∀ (n n' : ℕ) (x d : α), n ≠ n' → (l.set n x).getD n' d = l.getD n' d := by
  induction l with
  | nil => intro n n' x d _; simp
  | cons a as ih =>
      intro n n' x d h
      cases n with
      | zero =>
          cases n' with
          | zero => exact absurd rfl h
          | succ k' => rfl
      | succ k =>
          cases n' with
          | zero => rfl
          | succ k' =>
              simp only [List.set_cons_succ, List.getD_cons_succ]
              exact ih k k' x d (fun he => h (by rw [he]))

theorem length_setEntry (m : List (List ℚ)) (r c : ℕ) (x : ℚ) :
    (setEntry m r c x).length = m.length := by
  simp [setEntry]

theorem rowLen_setEntry {m : List (List ℚ)} {n : ℕ} (hm : RowLen m n)
    (r c : ℕ) (x : ℚ) : RowLen (setEntry m r c x) n := by
  intro j hj
  rw [length_setEntry] at hj
  by_cases hjr : r = j
  · subst hjr
    rw [setEntry, getD_set_self m r _ _ hj, List.length_set]
    exact hm r hj
  · rw [setEntry, getD_set_ne m r j _ _ hjr]
    exact hm j hj

theorem entry_setEntry_eq {m : List (List ℚ)} {n : ℕ} (hm : RowLen m n)
    (r c : ℕ) (x : ℚ) (hr : r < m.length) (hc : c < n) :
    entry (setEntry m r c x) r c = x := by
  rw [entry, setEntry, getD_set_self m r _ _ hr]
  exact getD_set_self _ c x 0 (by rw [hm r hr]; exact hc)

theorem entry_setEntry_row_ne (m : List (List ℚ)) (r c r' c' : ℕ) (x : ℚ)
    (h : r ≠ r') : entry (setEntry m r c x) r' c' = entry m r' c' := by
  rw [entry, setEntry, getD_set_ne m r r' _ _ h, entry]

theorem entry_setEntry_col_ne (m : List (List ℚ)) (r c r' c' : ℕ) (x : ℚ)
    (h : c ≠ c') : entry (setEntry m r c x) r' c' = entry m r' c' := by
  by_cases hr : r = r'
  · subst hr
    by_cases hrl : r < m.length
    · rw [entry, setEntry, getD_set_self m r _ _ hrl, getD_set_ne _ c c' _ _ h,
        entry]
    · rw [entry, setEntry, List.set_eq_of_length_le (by omega), entry]
  · exact entry_setEntry_row_ne m r c r' c' x hr

theorem length_writeCol_foldl (i : ℕ) (colR : List DualScalar) :
    ∀ (js : List ℕ) (m : List (List ℚ)),
      (js.foldl (fun m j => setEntry m j i ((colR.getD j ⟨0, 0⟩).dv)) m).length
        = m.length := by
  intro js
  induction js with
  | nil => intro m; rfl
  | cons j rest ih =>
      intro m
      simp only [List.foldl_cons]
      rw [ih, length_setEntry]

theorem rowLen_writeCol_foldl (i : ℕ) (colR : List DualScalar) {n : ℕ} :
    ∀ (js : List ℕ) (m : List (List ℚ)), RowLen m n →
      RowLen (js.foldl (fun m j => setEntry m j i ((colR.getD j ⟨0, 0⟩).dv)) m)
        n := by
  intro js
  induction js with
  | nil => intro m hm; exact hm
  | cons j rest ih =>
      intro m hm
      simp only [List.foldl_cons]
      exact ih _ (rowLen_setEntry hm j i _)

theorem entry_writeCol_foldl_col_ne (i : ℕ) (colR : List DualScalar)
    (c : ℕ) (hc : c ≠ i) :
    ∀ (js : List ℕ) (m : List (List ℚ)) (r : ℕ),
      entry (js.foldl (fun m j => setEntry m j i ((colR.getD j ⟨0, 0⟩).dv)) m)
          r c = entry m r c := by
  intro js
  induction js with
  | nil => intro m r; rfl
  | cons j rest ih =>
      intro m r
      simp only [List.foldl_cons]
      rw [ih, entry_setEntry_col_ne _ j i r c _ (fun h => hc h.symm)]

theorem entry_writeCol_foldl_notmem (i : ℕ) (colR : List DualScalar) :
    ∀ (js : List ℕ) (m : List (List ℚ)) (r c : ℕ), r ∉ js →
      entry (js.foldl (fun m j => setEntry m j i ((colR.getD j ⟨0, 0⟩).dv)) m)
          r c = entry m r c := by
  intro js
  induction js with
  | nil => intro m r c _; rfl
  | cons j rest ih =>
      intro m r c hr
      simp only [List.foldl_cons]
      rw [ih _ r c (fun h => hr (List.mem_cons_of_mem j h)),
        entry_setEntry_row_ne _ j i r c _
          (fun h => hr (h ▸ List.mem_cons_self j rest))]

theorem entry_writeCol_foldl_mem (i : ℕ) (colR : List DualScalar) {n : ℕ} :
    ∀ (js : List ℕ) (m : List (List ℚ)) (r : ℕ), js.Nodup → r ∈ js →
      RowLen m n → r < m.length → i < n →
      entry (js.foldl (fun m j => setEntry m j i ((colR.getD j ⟨0, 0⟩).dv)) m)
          r i = (colR.getD r ⟨0, 0⟩).dv := by
  intro js
  induction js with
  | nil => intro m r _ hr; exact absurd hr (List.not_mem_nil r)
  | cons j rest ih =>
      intro m r hnd hr hm hrl hi
      simp only [List.foldl_cons]
      rcases List.mem_cons.mp hr with hrj | hrrest
      · subst hrj
        have hnotin : r ∉ rest := (List.nodup_cons.mp hnd).1
        rw [entry_writeCol_foldl_notmem i colR rest _ r i hnotin]
        exact entry_setEntry_eq hm r i _ hrl hi
      · exact ih _ r (List.nodup_cons.mp hnd).2 hrrest
          (rowLen_setEntry hm j i _) (by rw [length_setEntry]; exact hrl) hi

theorem length_writeCol (mrows : ℕ) (m : List (List ℚ)) (i : ℕ)
    (colR : List DualScalar) : (writeCol mrows m i colR).length = m.length :=
  length_writeCol_foldl i colR (List.range mrows) m

theorem rowLen_writeCol {n : ℕ} (mrows : ℕ) {m : List (List ℚ)} (i : ℕ)
    (colR : List DualScalar) (hm : RowLen m n) :
    RowLen (writeCol mrows m i colR) n :=
  rowLen_writeCol_foldl i colR (List.range mrows) m hm

theorem entry_writeCol_eq {n : ℕ} (mrows : ℕ) {m : List (List ℚ)} (i : ℕ)
    (colR : List DualScalar) (r : ℕ) (hm : RowLen m n) (hr : r < mrows)
    (hrl : r < m.length) (hi : i < n) :
    entry (writeCol mrows m i colR) r i = (colR.getD r ⟨0, 0⟩).dv :=
  entry_writeCol_foldl_mem i colR (List.range mrows) m r (List.nodup_range mrows)
    (List.mem_range.mpr hr) hm hrl hi

theorem entry_writeCol_ne (mrows : ℕ) (m : List (List ℚ)) (i : ℕ)
    (colR : List DualScalar) (r c : ℕ) (hc : c ≠ i) :
    entry (writeCol mrows m i colR) r c = entry m r c :=
  entry_writeCol_foldl_col_ne i colR c hc (List.range mrows) m r

theorem jacLoop_entry (func : List DualScalar → List DualScalar)
    (mrows : ℕ) (x0 : List ℚ) :
    ∀ (idxs : List ℕ) (m : List (List ℚ)), idxs.Nodup →
      (∀ i ∈ idxs, i < x0.length) → RowLen m x0.length → m.length = mrows →
      ∀ r c, r < mrows →
        (c ∈ idxs →
          entry (jacLoop func mrows idxs (dualize x0) m) r c
            = ((func (setDv (dualize x0) c 1)).getD r ⟨0, 0⟩).dv) ∧
        (c ∉ idxs →
          entry (jacLoop func mrows idxs (dualize x0) m) r c = entry m r c) := by
  intro idxs
  induction idxs with
  | nil =>
      intro m _ _ _ _ r c _
      exact ⟨fun h => absurd h (List.not_mem_nil c), fun _ => rfl⟩
  | cons i rest ih =>
      intro m hnd hbound hm hlen r c hr
      have hstep : jacLoop func mrows (i :: rest) (dualize x0) m
          = jacLoop func mrows rest (dualize x0)
              (writeCol mrows m i (func (setDv (dualize x0) i 1))) := by
        show jacLoop func mrows rest
            (setDv (setDv (dualize x0) i 1) i 0) _ = _
        rw [setDv_setDv, setDv_dualize_zero]
      rw [hstep]
      have hm1 : RowLen (writeCol mrows m i (func (setDv (dualize x0) i 1)))
          x0.length := rowLen_writeCol mrows i _ hm
      have hlen1 : (writeCol mrows m i (func (setDv (dualize x0) i 1))).length
          = mrows := by rw [length_writeCol]; exact hlen
      have ihm := ih _ (List.nodup_cons.mp hnd).2
        (fun j hj => hbound j (List.mem_cons_of_mem i hj)) hm1 hlen1 r c hr
      constructor
      · intro hc
        rcases List.mem_cons.mp hc with hci | hcrest
        · subst hci
          rw [ihm.2 (List.nodup_cons.mp hnd).1]
          exact entry_writeCol_eq mrows c _ r hm hr (by rw [hlen]; exact hr)
            (hbound c (List.mem_cons_self c rest))
        · exact ihm.1 hcrest
      · intro hc
        rw [ihm.2 (fun h => hc (List.mem_cons_of_mem i h))]
        exact entry_writeCol_ne mrows m i _ r c
          (fun h => hc (h ▸ List.mem_cons_self i rest))

theorem getD_replicate {α : Type} (a d : α) :
    ∀ (k j : ℕ), j < k → (List.replicate k a).getD j d = a := by
  intro k
  induction k with
  | zero => intro j h; omega
  | succ n ih =>
      intro j h
      cases j with
      | zero => rfl
      | succ j' =>
          simp only [List.replicate_succ, List.getD_cons_succ]
          exact ih j' (by omega)

theorem jacobian_entry (mrows : ℕ) (func : List DualScalar → List DualScalar)
    (x0 : List ℚ) (r c : ℕ) (hr : r < mrows) (hc : c < x0.length) :
    entry (jacobian mrows func x0) r c
      = ((func (setDv (dualize x0) c 1)).getD r ⟨0, 0⟩).dv := by
  unfold jacobian
  exact (jacLoop_entry func mrows x0 (List.range x0.length)
    (List.replicate mrows (List.replicate x0.length 0))
    (List.nodup_range x0.length) (fun i hi => List.mem_range.mp hi)
    (fun j hj => by
      rw [getD_replicate _ _ mrows j (by simpa using hj)]
      exact List.length_replicate x0.length 0)
    (List.length_replicate mrows _) r c hr).1 (List.mem_range.mpr hc)

theorem jacLoopC_eq (func : List DualScalar → List DualScalar) (mrows : ℕ) :
    ∀ (idxs : List ℕ) (ins : List DualScalar) (m : List (List ℚ)),
      jacLoopC func mrows idxs ins m
        = (jacLoop func mrows idxs ins m, idxs.length) := by
  intro idxs
  induction idxs with
  | nil => intro ins m; rfl
  | cons i rest ih =>
      intro ins m
      simp [jacLoopC, jacLoop, ih]

theorem jacLibLoopC_eq (func : List DualScalar → List DualScalar)
    (x0 : List ℚ) :
    ∀ (idxs : List ℕ) (m : List (List ℚ)),
      jacLibLoopC func x0 idxs m
        = (jacLibLoop func x0 idxs m, idxs.length * x0.length) := by
  intro idxs
  induction idxs with
  | nil => intro m; simp [jacLibLoopC, jacLibLoop]
  | cons i rest ih =>
      intro m
      simp only [jacLibLoopC, jacLibLoop]
      rw [show gradientC (fun x => (func x).getD i ⟨0, 0⟩) x0
          = (gradient (fun x => (func x).getD i ⟨0, 0⟩) x0, x0.length) by
        unfold gradientC gradient
        rw [gradLoopC_eq]
        simp]
      rw [ih]
      simp [List.length_cons, Nat.succ_mul, Nat.add_comm]

/-- C5 counterexample: the claim says the column-wise strategy costing
exactly `N` evaluations of `f` is the one implemented, citing both
`forward.rs::jacobian` and `lib.rs::jacobian`; but the `lib.rs`
implementation evaluates `f` `M·N` times: on the concrete `R² → R²` test
function at `x0 = [1, 2]` (`N = 2`), its instrumented evaluation counter
is `4`, not `N = 2`. -/
theorem jacobianLib_count_counterexample :
    (jacobianLibC 2 fTest [1, 2]).2 = 2 * ([(1 : ℚ), 2]).length ∧
      (jacobianLibC 2 fTest [1, 2]).2 ≠ ([(1 : ℚ), 2]).length := by
  constructor
  · decide
  · decide

/-- C5 (amended): `forward.rs::jacobian` is column-wise: it evaluates `f`
exactly `N = x0.length` times (instrumented counter), and entry
`(row, col)` is the derivative field of output component `row` of `f`
evaluated with only input channel `col` seeded (row = output, column =
input).  The earlier draft `lib.rs::jacobian` is instead row-wise via
repeated `gradient` calls and evaluates `f` `M·N` times. -/
theorem jacobian_columnwise_amended (mrows : ℕ)
    (func : List DualScalar → List DualScalar) (x0 : List ℚ) :
    jacobianC mrows func x0 = (jacobian mrows func x0, x0.length) ∧
    jacobianLibC mrows func x0 = (jacobianLib mrows func x0, mrows * x0.length) ∧
    (∀ r c, r < mrows → c < x0.length →
      entry (jacobian mrows func x0) r c
        = ((func (setDv (dualize x0) c 1)).getD r ⟨0, 0⟩).dv) := by
  refine ⟨?_, ?_, fun r c hr hc => jacobian_entry mrows func x0 r c hr hc⟩
  · unfold jacobianC jacobian
    rw [jacLoopC_eq]
    simp
  · unfold jacobianLibC jacobianLib
    rw [jacLibLoopC_eq]
    simp

theorem jacobian_columnwise_amended_witness :
    (0 : ℕ) < 2 ∧ (0 : ℕ) < ([(1 : ℚ), 2]).length ∧
    entry (jacobian 2 fTest [1, 2]) 0 0
      = ((fTest (setDv (dualize [1, 2]) 0 1)).getD 0 ⟨0, 0⟩).dv :=
  ⟨by decide, by decide,
   (jacobian_columnwise_amended 2 fTest [1, 2]).2.2 0 0 (by decide) (by decide)⟩

/-- Every handle returned by the interface points strictly inside the tape. -/
theorem built_var_index_lt {t : Tape} {vs : List Var} (hb : Built t vs) :
    ∀ x ∈ vs, x.index < t.nodes.length := by
  induction hb with
  | new => intro x hx; exact absurd hx (List.not_mem_nil x)
  | varStep t vs v _ ih =>
      intro x hx
      have hlen : (Tape.var t v).1.nodes.length = t.nodes.length + 1 := by
        simp [Tape.var]
      rcases List.mem_cons.mp hx with h | h
      · rw [h, hlen]; exact Nat.lt_succ_self _
      · rw [hlen]; exact Nat.lt_succ_of_lt (ih x h)
  | addStep t vs x y _ _ _ ih =>
      intro z hz
      have hlen : (Var.add x y t).1.nodes.length = t.nodes.length + 1 := by
        simp [Var.add, Tape.binaryOp]
      rcases List.mem_cons.mp hz with h | h
      · rw [h, hlen]; exact Nat.lt_succ_self _
      · rw [hlen]; exact Nat.lt_succ_of_lt (ih z h)
  | subStep t vs x y _ _ _ ih =>
      intro z hz
      have hlen : (Var.sub x y t).1.nodes.length = t.nodes.length + 1 := by
        simp [Var.sub, Tape.binaryOp]
      rcases List.mem_cons.mp hz with h | h
      · rw [h, hlen]; exact Nat.lt_succ_self _
      · rw [hlen]; exact Nat.lt_succ_of_lt (ih z h)
  | mulStep t vs x y _ _ _ ih =>
      intro z hz
      have hlen : (Var.mul x y t).1.nodes.length = t.nodes.length + 1 := by
        simp [Var.mul, Tape.binaryOp]
      rcases List.mem_cons.mp hz with h | h
      · rw [h, hlen]; exact Nat.lt_succ_self _
      · rw [hlen]; exact Nat.lt_succ_of_lt (ih z h)
  | divStep t vs x y _ _ _ ih =>
      intro z hz
      have hlen : (Var.div x y t).1.nodes.length = t.nodes.length + 1 := by
        simp [Var.div, Tape.binaryOp]
      rcases List.mem_cons.mp hz with h | h
      · rw [h, hlen]; exact Nat.lt_succ_self _
      · rw [hlen]; exact Nat.lt_succ_of_lt (ih z h)
  | negStep t vs x _ _ ih =>
      intro z hz
      have hlen : (Var.neg x t).1.nodes.length = t.nodes.length + 1 := by
        simp [Var.neg, Tape.unaryOp]
      rcases List.mem_cons.mp hz with h | h
      · rw [h, hlen]; exact Nat.lt_succ_self _
      · rw [hlen]; exact Nat.lt_succ_of_lt (ih z h)
  | smulStep t vs c x _ _ ih =>
      intro z hz
      have hlen : (Var.smul c x t).1.nodes.length = t.nodes.length + 1 := by
        simp [Var.smul, Tape.unaryOp]
      rcases List.mem_cons.mp hz with h | h
      · rw [h, hlen]; exact Nat.lt_succ_self _
      · rw [hlen]; exact Nat.lt_succ_of_lt (ih z h)

theorem getD_append_left {α : Type} (l l' : List α) (d : α) :
    ∀ i, i < l.length → (l ++ l').getD i d = l.getD i d := by
  induction l with
  | nil => intro i h; simp at h
  | cons a as ih =>
      intro i h
      cases i with
      | zero => rfl
      | succ k =>
          simp only [List.cons_append, List.getD_cons_succ]
          exact ih k (by simpa using h)

theorem getD_append_length {α : Type} (l : List α) (x d : α) :
    (l ++ [x]).getD l.length d = x := by
  induction l with
  | nil => rfl
  | cons a as ih =>
      simp only [List.cons_append, List.length_cons, List.getD_cons_succ]
      exact ih

/-- Appending one node whose parents/partials satisfy the amended node
condition at the new index preserves `AmendedInv`. -/
theorem amendedInv_append {t : Tape} (nd : Node) (h : AmendedInv t)
    (hnd : (nd.parents.1 < t.nodes.length ∧ nd.parents.2 < t.nodes.length) ∨
      (nd.parents.1 = t.nodes.length ∧ nd.parents.2 = t.nodes.length ∧
        nd.pds = (0, 0)) ∨
      (nd.parents.1 < t.nodes.length ∧ nd.parents.2 = t.nodes.length ∧
        nd.pds.2 = 0)) :
    AmendedInv ⟨t.nodes ++ [nd]⟩ := by
  intro i hi
  simp only [List.length_append, List.length_singleton] at hi
  by_cases hilt : i < t.nodes.length
  · have hg : (Tape.mk (t.nodes ++ [nd])).nodes.getD i Node.dflt
        = t.nodes.getD i Node.dflt := getD_append_left t.nodes [nd] Node.dflt i hilt
    rw [hg]
    exact h i hilt
  · have hieq : i = t.nodes.length := by omega
    subst hieq
    have hg : (Tape.mk (t.nodes ++ [nd])).nodes.getD t.nodes.length Node.dflt
        = nd := getD_append_length t.nodes nd Node.dflt
    rw [hg]
    exact hnd

theorem built_amendedInv (t : Tape) (vs : List Var) (hb : Built t vs) :
    AmendedInv t := by
  induction hb with
  | new => intro i hi; simp [Tape.nodes] at hi
  | varStep t vs v _ ih =>
      exact amendedInv_append _ ih (Or.inr (Or.inl ⟨rfl, rfl, rfl⟩))
  | addStep t vs x y hb hx hy ih =>
      exact amendedInv_append _ ih
        (Or.inl ⟨built_var_index_lt hb x hx, built_var_index_lt hb y hy⟩)
  | subStep t vs x y hb hx hy ih =>
      exact amendedInv_append _ ih
        (Or.inl ⟨built_var_index_lt hb x hx, built_var_index_lt hb y hy⟩)
  | mulStep t vs x y hb hx hy ih =>
      exact amendedInv_append _ ih
        (Or.inl ⟨built_var_index_lt hb x hx, built_var_index_lt hb y hy⟩)
  | divStep t vs x y hb hx hy ih =>
      exact amendedInv_append _ ih
        (Or.inl ⟨built_var_index_lt hb x hx, built_var_index_lt hb y hy⟩)
  | negStep t vs x hb hx ih =>
      exact amendedInv_append _ ih
        (Or.inr (Or.inr ⟨built_var_index_lt hb x hx, rfl, rfl⟩))
  | smulStep t vs c x hb hx ih =>
      exact amendedInv_append _ ih
        (Or.inr (Or.inr ⟨built_var_index_lt hb x hx, rfl, rfl⟩))

/-- C7 (amended): every tape built through the public interface satisfies,
at every node: both parent indices strictly precede the node's own index,
except for leaf (input) nodes — both parents self-referencing with
partials `0.0` — and unary-operation nodes — first parent strictly
preceding, second parent self-referencing with second partial `0.0`; the
invariant is preserved by every appending operation (`Built` closes over
all of them). -/
theorem tape_invariant_amended (t : Tape) (vs : List Var) (hb : Built t vs) :
    AmendedInv t :=
  built_amendedInv t vs hb

/-- C7 counterexample: the two-node tape built through the public
interface by `x = tape.var(1.0); z = -x` violates the claimed invariant:
the neg node (index 1) is not a leaf, yet its second parent index equals
its own index rather than strictly preceding it. -/
theorem claimed_invariant_counterexample :
    Built cxT2.1 [cxT2.2, cxT1.2] ∧ ¬ ClaimedInv cxT2.1 := by
  constructor
  · exact Built.negStep cxT1.1 [cxT1.2] cxT1.2
      (Built.varStep ⟨[]⟩ [] 1 Built.new) (List.Mem.head [])
  · unfold ClaimedInv
    decide

theorem tape_invariant_amended_witness : AmendedInv cxT2.1 :=
  tape_invariant_amended cxT2.1 [cxT2.2, cxT1.2]
    (Built.negStep cxT1.1 [cxT1.2] cxT1.2
      (Built.varStep ⟨[]⟩ [] 1 Built.new) (List.Mem.head []))

theorem stepNode_getD (g : List ℚ) (nd : Node) (i : ℕ)
    (h1 : nd.parents.1 < g.length) (h2 : nd.parents.2 < g.length) :
    ∀ m, (stepNode g nd i).getD m 0 = stepFN nd (fun m => g.getD m 0) i m := by
  have l1 : ∀ m, (g.set nd.parents.1
      (g.getD nd.parents.1 0 + nd.pds.1 * g.getD i 0)).getD m 0
      = Function.update (fun m => g.getD m 0) nd.parents.1
          (g.getD nd.parents.1 0 + nd.pds.1 * g.getD i 0) m := by
    intro m
    by_cases hm : nd.parents.1 = m
    · subst hm
      rw [getD_set_self g _ _ _ h1, Function.update_same]
    · rw [getD_set_ne g _ _ _ _ hm, Function.update_noteq (fun h => hm h.symm)]
  intro m
  show (stepNode g nd i).getD m 0 = _
  unfold stepNode stepFN
  simp only
  by_cases hm : nd.parents.2 = m
  · subst hm
    rw [getD_set_self _ _ _ _ (by rw [List.length_set]; exact h2),
      Function.update_same, l1, l1]
  · rw [getD_set_ne _ _ _ _ _ hm, Function.update_noteq (fun h => hm h.symm), l1]

theorem scan_bridge (T : List Node) :
    ∀ (idxs : List ℕ) (g : List ℚ),
      (∀ i ∈ idxs, (T.getD i Node.dflt).parents.1 < g.length ∧
        (T.getD i Node.dflt).parents.2 < g.length) →
      ∀ m, (idxs.foldl (fun g i => stepNode g (T.getD i Node.dflt) i) g).getD m 0
        = scanIdx T idxs (fun m => g.getD m 0) m := by
  intro idxs
  induction idxs with
  | nil => intro g _ m; rfl
  | cons i rest ih =>
      intro g hp m
      simp only [List.foldl_cons]
      have hstep := stepNode_getD g (T.getD i Node.dflt) i
        (hp i (List.mem_cons_self i rest)).1 (hp i (List.mem_cons_self i rest)).2
      have hrec := ih (stepNode g (T.getD i Node.dflt) i)
        (fun j hj => by
          rw [stepNode_length]
          exact hp j (List.mem_cons_of_mem i hj)) m
      rw [hrec]
      show scanIdx T rest (fun m => (stepNode g (T.getD i Node.dflt) i).getD m 0) m
        = scanIdx T rest (stepFN (T.getD i Node.dflt) (fun m => g.getD m 0) i) m
      rw [funext hstep]

theorem scanIdx_append (T : List Node) (l1 l2 : List ℕ) (a : ℕ → ℚ) :
    scanIdx T (l1 ++ l2) a = scanIdx T l2 (scanIdx T l1 a) := by
  unfold scanIdx
  rw [List.foldl_append]

theorem scanIdx_congr_nodes {T T' : List Node} :
    ∀ (idxs : List ℕ) (a : ℕ → ℚ),
      (∀ i ∈ idxs, T.getD i Node.dflt = T'.getD i Node.dflt) →
      scanIdx T idxs a = scanIdx T' idxs a := by
  intro idxs
  induction idxs with
  | nil => intro a _; rfl
  | cons i rest ih =>
      intro a h
      show scanIdx T rest (stepFN (T.getD i Node.dflt) a i)
        = scanIdx T' rest (stepFN (T'.getD i Node.dflt) a i)
      rw [h i (List.mem_cons_self i rest)]
      exact ih _ (fun j hj => h j (List.mem_cons_of_mem i hj))

theorem stepFN_self_zero (nd : Node) (a : ℕ → ℚ) (i : ℕ) (h : a i = 0) :
    stepFN nd a i = a := by
  unfold stepFN
  simp only
  rw [h, mul_zero, add_zero, Function.update_eq_self, h, mul_zero, add_zero,
    Function.update_eq_self]

theorem scanIdx_zero_on (T : List Node) :
    ∀ (idxs : List ℕ) (a : ℕ → ℚ), (∀ i ∈ idxs, a i = 0) →
      scanIdx T idxs a = a := by
  intro idxs
  induction idxs with
  | nil => intro a _; rfl
  | cons i rest ih =>
      intro a h
      show scanIdx T rest (stepFN (T.getD i Node.dflt) a i) = a
      rw [stepFN_self_zero _ a i (h i (List.mem_cons_self i rest))]
      exact ih a (fun j hj => h j (List.mem_cons_of_mem i hj))

theorem stepFN_leaf (nd : Node) (a : ℕ → ℚ) (i : ℕ) (h : nd.pds = (0, 0)) :
    stepFN nd a i = a := by
  unfold stepFN
  simp only [h]
  rw [zero_mul, add_zero, Function.update_eq_self, zero_mul, add_zero,
    Function.update_eq_self]

theorem scanIdx_leaves (T : List Node) :
    ∀ (idxs : List ℕ) (a : ℕ → ℚ),
      (∀ i ∈ idxs, (T.getD i Node.dflt).pds = (0, 0)) →
      scanIdx T idxs a = a := by
  intro idxs
  induction idxs with
  | nil => intro a _; rfl
  | cons i rest ih =>
      intro a h
      show scanIdx T rest (stepFN (T.getD i Node.dflt) a i) = a
      rw [stepFN_leaf _ a i (h i (List.mem_cons_self i rest))]
      exact ih a (fun j hj => h j (List.mem_cons_of_mem i hj))

theorem stepFN_additive (nd : Node) (a : ℕ → ℚ) (i : ℕ)
    (h1 : nd.parents.1 ≠ i) (h2 : nd.parents.2 ≠ i) :
    stepFN nd a i = fun m =>
      a m + (if m = nd.parents.1 then nd.pds.1 * a i else 0)
          + (if m = nd.parents.2 then nd.pds.2 * a i else 0) := by
  funext m
  unfold stepFN
  simp only [Function.update_apply]
  rw [if_neg (fun h : i = nd.parents.1 => h1 h.symm)]
  by_cases hm2 : m = nd.parents.2
  · rw [if_pos hm2, if_pos hm2]
    by_cases hp21 : nd.parents.2 = nd.parents.1
    · rw [if_pos hp21, if_pos (hm2.trans hp21), hm2, hp21]
    · rw [if_neg hp21, if_neg (fun h : m = nd.parents.1 => hp21 (hm2.symm.trans h)),
        hm2]
      ring
  · rw [if_neg hm2, if_neg hm2]
    by_cases hm1 : m = nd.parents.1
    · rw [if_pos hm1, if_pos hm1, hm1]
      ring
    · rw [if_neg hm1, if_neg hm1]
      ring

theorem revRange_zero (n : ℕ) : revRange 0 n = (List.range n).reverse := by
  unfold revRange
  rw [Nat.sub_zero, List.range_eq_range']

theorem revRange_split (lo d1 d2 : ℕ) :
    revRange lo (lo + d1 + d2)
      = revRange (lo + d1) (lo + d1 + d2) ++ revRange lo (lo + d1) := by
  unfold revRange
  have e1 : lo + d1 + d2 - lo = d1 + d2 := by omega
  have e2 : lo + d1 + d2 - (lo + d1) = d2 := by omega
  have e3 : lo + d1 - lo = d1 := by omega
  rw [e1, e2, e3, ← List.reverse_append]
  have e4 : List.range' lo d1 ++ List.range' (lo + d1) d2
      = List.range' lo (d1 + d2) := by
    have := List.range'_append lo d1 d2 1
    rw [one_mul] at this
    rw [this, Nat.add_comm d2 d1]
  rw [e4]

theorem revRange_append (lo mid hi : ℕ) (h1 : lo ≤ mid) (h2 : mid ≤ hi) :
    revRange lo hi = revRange mid hi ++ revRange lo mid := by
  have e1 : lo + (mid - lo) = mid := by omega
  have e2 : lo + (mid - lo) + (hi - mid) = hi := by omega
  have h := revRange_split lo (mid - lo) (hi - mid)
  rw [e1] at h
  have e2' : mid + (hi - mid) = hi := by omega
  rw [e2'] at h
  exact h

theorem mem_revRange {i lo hi : ℕ} (h : i ∈ revRange lo hi) :
    lo ≤ i ∧ i < hi := by
  unfold revRange at h
  rw [List.mem_reverse] at h
  have := List.mem_range'_1.mp h
  omega

theorem revRange_singleton (lo : ℕ) : revRange lo (lo + 1) = [lo] := by
  unfold revRange
  have e : lo + 1 - lo = 1 := by omega
  rw [e]
  rfl

/-- The seed adjoint array of `backprop`, read as a function. -/
theorem getD_replicate_set (l k : ℕ) (hk : k < l) :
    ∀ m, ((List.replicate l (0 : ℚ)).set k 1).getD m 0
      = if m = k then 1 else 0 := by
  intro m
  by_cases hm : m = k
  · subst hm
    rw [if_pos rfl]
    exact getD_set_self _ m 1 0 (by simpa using hk)
  · rw [if_neg hm, getD_set_ne _ _ _ _ _ (fun h => hm h.symm)]
    by_cases hml : m < l
    · exact getD_replicate 0 0 l m hml
    · exact List.getD_eq_default _ _ (by simpa using Nat.le_of_not_lt hml)

/-- In-range nodes of a tape satisfying the amended invariant have both
parent indices at most the node's own index. -/
theorem amendedInv_parents_le {t : Tape} (h : AmendedInv t) :
    ∀ i, i < t.nodes.length →
      (t.nodes.getD i Node.dflt).parents.1 ≤ i ∧
        (t.nodes.getD i Node.dflt).parents.2 ≤ i := by
  intro i hi
  rcases h i hi with ⟨ha, hb⟩ | ⟨ha, hb, _⟩ | ⟨ha, hb, _⟩ <;>
    exact ⟨by omega, by omega⟩

/-- `Var.backprop` read entrywise equals the functional reverse scan of
the whole tape from the seed-at-`x.index` function, provided the tape
satisfies the amended invariant and `x.index` is in range. -/
theorem backprop_getD_eq_scan (t : Tape) (x : Var) (hx : x.index < t.nodes.length)
    (hinv : AmendedInv t) :
    ∀ m, (Var.backprop x t).grad.getD m 0
      = scanIdx t.nodes ((List.range t.nodes.length).reverse)
          (fun m => if m = x.index then 1 else 0) m := by
  intro m
  unfold Var.backprop
  simp only
  rw [scan_bridge t.nodes ((List.range t.nodes.length).reverse)
    ((List.replicate t.nodes.length (0 : ℚ)).set x.index 1)
    (fun i hi => by
      rw [List.mem_reverse, List.mem_range] at hi
      have hp := amendedInv_parents_le hinv i hi
      constructor
      · rw [List.length_set, List.length_replicate]; omega
      · rw [List.length_set, List.length_replicate]; omega) m]
  rw [funext (getD_replicate_set t.nodes.length x.index hx)]

/-- C9: for every `Var` handle `v` on an interface-built tape that has
since been extended, `v.backprop()` agrees, at every index up to and
including `v.index`, with backprop run on the tape truncated to `v`'s
creation point: entries recorded after `v` do not influence those
adjoints. -/
theorem backprop_prefix_stable (t : Tape) (vs : List Var) (hb : Built t vs)
    (x : Var) (hx : x ∈ vs) :
    ∀ j, j ≤ x.index →
      (Var.backprop x t).grad.getD j 0
        = (Var.backprop x ⟨t.nodes.take (x.index + 1)⟩).grad.getD j 0 := by
  intro j hj
  have hinv : AmendedInv t := built_amendedInv t vs hb
  have hk : x.index < t.nodes.length := built_var_index_lt hb x hx
  have hlen' : (Tape.mk (t.nodes.take (x.index + 1))).nodes.length
      = x.index + 1 := by
    show (t.nodes.take (x.index + 1)).length = x.index + 1
    rw [List.length_take]
    omega
  have hagree : ∀ i, i < x.index + 1 →
      (t.nodes.take (x.index + 1)).getD i Node.dflt
        = t.nodes.getD i Node.dflt := by
    intro i hi
    rw [List.getD_eq_getElem?_getD, List.getD_eq_getElem?_getD,
      List.getElem?_take_of_lt hi]
  have hinv' : AmendedInv ⟨t.nodes.take (x.index + 1)⟩ := by
    intro i hi
    rw [hlen'] at hi
    have := hinv i (by omega)
    show ((t.nodes.take (x.index + 1)).getD i Node.dflt).parents.1 < i ∧ _ ∨ _
    rw [hagree i hi]
    exact this
  rw [backprop_getD_eq_scan t x hk hinv,
    backprop_getD_eq_scan ⟨t.nodes.take (x.index + 1)⟩ x
      (by rw [hlen']; omega) hinv']
  rw [← revRange_zero t.nodes.length]
  rw [revRange_append 0 (x.index + 1) t.nodes.length (by omega) (by omega)]
  rw [scanIdx_append]
  rw [scanIdx_zero_on t.nodes (revRange (x.index + 1) t.nodes.length) _
    (fun i hi => by
      have := mem_revRange hi
      rw [if_neg (by omega)])]
  show scanIdx t.nodes (revRange 0 (x.index + 1)) _ j = _
  rw [hlen']
  rw [← revRange_zero (x.index + 1)]
  exact congrFun (scanIdx_congr_nodes (revRange 0 (x.index + 1)) _
    (fun i hi => (hagree i (mem_revRange hi).2).symm)) j

theorem backprop_prefix_stable_witness :
    (Var.backprop cxT1.2
        (Var.add cxT1.2 (Tape.var cxT1.1 2).2 (Tape.var cxT1.1 2).1).1).grad.getD 0 0
      = (Var.backprop cxT1.2
          ⟨(Var.add cxT1.2 (Tape.var cxT1.1 2).2
              (Tape.var cxT1.1 2).1).1.nodes.take (cxT1.2.index + 1)⟩).grad.getD 0 0 :=
  backprop_prefix_stable
    (Var.add cxT1.2 (Tape.var cxT1.1 2).2 (Tape.var cxT1.1 2).1).1
    [(Var.add cxT1.2 (Tape.var cxT1.1 2).2 (Tape.var cxT1.1 2).1).2,
      (Tape.var cxT1.1 2).2, cxT1.2]
    (Built.addStep (Tape.var cxT1.1 2).1 [(Tape.var cxT1.1 2).2, cxT1.2]
      cxT1.2 (Tape.var cxT1.1 2).2
      (Built.varStep cxT1.1 [cxT1.2] 2 (Built.varStep ⟨[]⟩ [] 1 Built.new))
      (List.Mem.tail _ (List.Mem.head []))
      (List.Mem.head [cxT1.2]))
    cxT1.2
    (List.Mem.tail _ (List.Mem.tail _ (List.Mem.head [])))
    0 (Nat.le_refl 0)

theorem TExt_refl (s : List Node) : TExt s s :=
  ⟨[], (List.append_nil s).symm⟩

theorem TExt_trans {T s u : List Node} (h1 : TExt T s) (h2 : TExt s u) :
    TExt T u := by
  obtain ⟨d1, hd1⟩ := h1
  obtain ⟨d2, hd2⟩ := h2
  exact ⟨d2 ++ d1, by rw [hd1, hd2, List.append_assoc]⟩

theorem TExt_len_le {T s : List Node} (h : TExt T s) : s.length ≤ T.length := by
  obtain ⟨d, hd⟩ := h
  rw [hd, List.length_append]
  omega

theorem TExt_getD {T s : List Node} (h : TExt T s) :
    ∀ i, i < s.length → T.getD i Node.dflt = s.getD i Node.dflt := by
  obtain ⟨d, hd⟩ := h
  intro i hi
  rw [hd, getD_append_left s d Node.dflt i hi]

theorem TExt_snoc {T s : List Node} (nd : Node) (h : TExt T (s ++ [nd])) :
    TExt T s := by
  obtain ⟨d, hd⟩ := h
  exact ⟨[nd] ++ d, by rw [hd, List.append_assoc]⟩

theorem TExt_getD_snoc {T s : List Node} (nd : Node) (h : TExt T (s ++ [nd])) :
    T.getD s.length Node.dflt = nd := by
  rw [TExt_getD h s.length (by rw [List.length_append]; simp),
    getD_append_length]

theorem recordE_nodes_ext {n : ℕ} (e : Expr n) :
    ∀ (t : Tape) (vsf : Fin n → Var), TExt (recordE e t vsf).1.nodes t.nodes := by
  induction e with
  | input i => intro t vsf; exact TExt_refl t.nodes
  | add e1 e2 ih1 ih2 =>
      intro t vsf
      refine TExt_trans (TExt_trans ⟨_, rfl⟩ (ih2 (recordE e1 t vsf).1 vsf))
        (ih1 t vsf)
  | sub e1 e2 ih1 ih2 =>
      intro t vsf
      refine TExt_trans (TExt_trans ⟨_, rfl⟩ (ih2 (recordE e1 t vsf).1 vsf))
        (ih1 t vsf)
  | mul e1 e2 ih1 ih2 =>
      intro t vsf
      refine TExt_trans (TExt_trans ⟨_, rfl⟩ (ih2 (recordE e1 t vsf).1 vsf))
        (ih1 t vsf)
  | div e1 e2 ih1 ih2 =>
      intro t vsf
      refine TExt_trans (TExt_trans ⟨_, rfl⟩ (ih2 (recordE e1 t vsf).1 vsf))
        (ih1 t vsf)

theorem recordE_len_le {n : ℕ} (e : Expr n) (t : Tape) (vsf : Fin n → Var) :
    t.nodes.length ≤ (recordE e t vsf).1.nodes.length :=
  TExt_len_le (recordE_nodes_ext e t vsf)

theorem recordE_index_lt {n : ℕ} (e : Expr n) :
    ∀ (t : Tape) (vsf : Fin n → Var), (∀ i, (vsf i).index < t.nodes.length) →
      (recordE e t vsf).2.index < (recordE e t vsf).1.nodes.length := by
  induction e with
  | input i => intro t vsf h; exact h i
  | add e1 e2 ih1 ih2 =>
      intro t vsf h
      simp only [recordE, Var.add, Var.sub, Var.mul, Var.div, Tape.binaryOp]
      rw [List.length_append]
      simp
  | sub e1 e2 ih1 ih2 =>
      intro t vsf h
      simp only [recordE, Var.add, Var.sub, Var.mul, Var.div, Tape.binaryOp]
      rw [List.length_append]
      simp
  | mul e1 e2 ih1 ih2 =>
      intro t vsf h
      simp only [recordE, Var.add, Var.sub, Var.mul, Var.div, Tape.binaryOp]
      rw [List.length_append]
      simp
  | div e1 e2 ih1 ih2 =>
      intro t vsf h
      simp only [recordE, Var.add, Var.sub, Var.mul, Var.div, Tape.binaryOp]
      rw [List.length_append]
      simp

theorem recordE_val {n : ℕ} (e : Expr n) :
    ∀ (t : Tape) (vsf : Fin n → Var),
      (recordE e t vsf).2.v = valE e (fun k => (vsf k).v) := by
  induction e with
  | input i => intro t vsf; rfl
  | add e1 e2 ih1 ih2 =>
      intro t vsf
      show (recordE e1 t vsf).2.v + (recordE e2 (recordE e1 t vsf).1 vsf).2.v = _
      rw [ih1 t vsf, ih2 (recordE e1 t vsf).1 vsf]
      rfl
  | sub e1 e2 ih1 ih2 =>
      intro t vsf
      show (recordE e1 t vsf).2.v - (recordE e2 (recordE e1 t vsf).1 vsf).2.v = _
      rw [ih1 t vsf, ih2 (recordE e1 t vsf).1 vsf]
      rfl
  | mul e1 e2 ih1 ih2 =>
      intro t vsf
      show (recordE e1 t vsf).2.v * (recordE e2 (recordE e1 t vsf).1 vsf).2.v = _
      rw [ih1 t vsf, ih2 (recordE e1 t vsf).1 vsf]
      rfl
  | div e1 e2 ih1 ih2 =>
      intro t vsf
      show (recordE e1 t vsf).2.v / (recordE e2 (recordE e1 t vsf).1 vsf).2.v = _
      rw [ih1 t vsf, ih2 (recordE e1 t vsf).1 vsf]
      rfl

theorem evalDualE_v {n : ℕ} (e : Expr n) :
    ∀ ds : Fin n → DualScalar, (evalDualE e ds).v = valE e (fun j => (ds j).v) := by
  induction e with
  | input i => intro ds; rfl
  | add e1 e2 ih1 ih2 =>
      intro ds
      show (evalDualE e1 ds).v + (evalDualE e2 ds).v = _
      rw [ih1 ds, ih2 ds]
      rfl
  | sub e1 e2 ih1 ih2 =>
      intro ds
      show (evalDualE e1 ds).v - (evalDualE e2 ds).v = _
      rw [ih1 ds, ih2 ds]
      rfl
  | mul e1 e2 ih1 ih2 =>
      intro ds
      show (evalDualE e1 ds).v * (evalDualE e2 ds).v = _
      rw [ih1 ds, ih2 ds]
      rfl
  | div e1 e2 ih1 ih2 =>
      intro ds
      show (evalDualE e1 ds).v / (evalDualE e2 ds).v = _
      rw [ih1 ds, ih2 ds]
      rfl

theorem pdE_input {n : ℕ} (i0 i : Fin n) (xs : Fin n → ℚ) :
    pdE (.input i0) xs i = if i0 = i then 1 else 0 := rfl

theorem pdE_add {n : ℕ} (e1 e2 : Expr n) (xs : Fin n → ℚ) (i : Fin n) :
    pdE (.add e1 e2) xs i = pdE e1 xs i + pdE e2 xs i := rfl

theorem pdE_sub {n : ℕ} (e1 e2 : Expr n) (xs : Fin n → ℚ) (i : Fin n) :
    pdE (.sub e1 e2) xs i = pdE e1 xs i - pdE e2 xs i := rfl

theorem valE_seedF {n : ℕ} (e : Expr n) (xs : Fin n → ℚ) (i : Fin n) :
    (evalDualE e (seedF xs i)).v = valE e xs := by
  rw [evalDualE_v]
  rfl

theorem pdE_mul {n : ℕ} (e1 e2 : Expr n) (xs : Fin n → ℚ) (i : Fin n) :
    pdE (.mul e1 e2) xs i
      = pdE e1 xs i * valE e2 xs + valE e1 xs * pdE e2 xs i := by
  show (evalDualE e1 (seedF xs i)).dv * (evalDualE e2 (seedF xs i)).v
      + (evalDualE e1 (seedF xs i)).v * (evalDualE e2 (seedF xs i)).dv = _
  rw [valE_seedF, valE_seedF]
  rfl

theorem pdE_div {n : ℕ} (e1 e2 : Expr n) (xs : Fin n → ℚ) (i : Fin n) :
    pdE (.div e1 e2) xs i
      = (pdE e1 xs i * valE e2 xs - valE e1 xs * pdE e2 xs i)
          / (valE e2 xs * valE e2 xs) := by
  show ((evalDualE e1 (seedF xs i)).dv * (evalDualE e2 (seedF xs i)).v
      - (evalDualE e1 (seedF xs i)).v * (evalDualE e2 (seedF xs i)).dv)
      / ((evalDualE e2 (seedF xs i)).v * (evalDualE e2 (seedF xs i)).v) = _
  rw [valE_seedF, valE_seedF]
  rfl

/-- The two ways the reverse and forward rules combine a quotient's
partials agree in `ℚ`, including at a zero denominator (both sides `0`). -/
theorem div_pd_identity (v1 v2 q1 q2 : ℚ) :
    (1 / v2) * q1 + (-v1 / (v2 * v2)) * q2 = (q1 * v2 - v1 * q2) / (v2 * v2) := by
  by_cases h : v2 = 0
  · subst h
    simp
  · field_simp
    ring

/-- Evaluate the functional adjoint-vector increment pointwise. -/
theorem bump_apply (a : ℕ → ℚ) (k : ℕ) (c : ℚ) (m : ℕ) :
    bump a k c m = if m = k then a m + c else a m := rfl

theorem revRange_self (lo : ℕ) : revRange lo lo = [] := by
  unfold revRange
  rw [Nat.sub_self]
  rfl

theorem sum_if_combine {n : ℕ} (pidx : Fin n → ℕ) (j : ℕ) (p q : ℚ)
    (f g : Fin n → ℚ) :
    ∑ i : Fin n, (if pidx i = j then p * f i + q * g i else 0)
      = p * (∑ i : Fin n, if pidx i = j then f i else 0)
        + q * (∑ i : Fin n, if pidx i = j then g i else 0) := by
  rw [Finset.mul_sum, Finset.mul_sum, ← Finset.sum_add_distrib]
  refine Finset.sum_congr rfl (fun i _ => ?_)
  by_cases h : pidx i = j
  · rw [if_pos h, if_pos h, if_pos h]
  · rw [if_neg h, if_neg h, if_neg h]
    ring

theorem sum_if_vanish {n : ℕ} (pidx : Fin n → ℕ) (f : Fin n → ℚ) (j : ℕ)
    (h : ∀ i, pidx i ≠ j) :
    ∑ i : Fin n, (if pidx i = j then f i else 0) = 0 :=
  Finset.sum_eq_zero (fun i _ => by rw [if_neg (h i)])

theorem scan_record_input {n : ℕ} (i0 : Fin n) : ScanSpec (.input i0) := by
  intro t vsf T a c hvs hT hz j hj
  show scanIdx T (revRange t.nodes.length t.nodes.length)
      (bump a (vsf i0).index c) j = _
  rw [revRange_self]
  show bump a (vsf i0).index c j = _
  rw [bump_apply]
  have hsum : ∑ i : Fin n,
      (if (vsf i).index = j then pdE (.input i0) (fun k => (vsf k).v) i else 0)
      = if (vsf i0).index = j then 1 else 0 := by
    rw [Finset.sum_eq_single i0]
    · rw [pdE_input, if_pos rfl]
    · intro i _ hne
      rw [pdE_input]
      by_cases h : (vsf i).index = j
      · rw [if_pos h, if_neg (fun hh : i0 = i => hne hh.symm)]
      · rw [if_neg h]
    · intro h
      exact absurd (Finset.mem_univ i0) h
  rw [hsum]
  by_cases h : j = (vsf i0).index
  · rw [if_pos h, if_pos h.symm, mul_one]
  · rw [if_neg h, if_neg (fun hh => h hh.symm), mul_zero, add_zero]

theorem stepFN_additive_lit (p1 p2 : ℚ) (i1 i2 : ℕ) (a : ℕ → ℚ) (i : ℕ)
    (h1 : i1 ≠ i) (h2 : i2 ≠ i) :
    stepFN ⟨(p1, p2), (i1, i2)⟩ a i
      = fun m => a m + (if m = i1 then p1 * a i else 0)
          + (if m = i2 then p2 * a i else 0) :=
  stepFN_additive ⟨(p1, p2), (i1, i2)⟩ a i h1 h2

/-- Scanning the recorded region of a binary node on top of the regions of
its two operand subexpressions: the seed `c` placed on the combined node
flows to each prefix index `j` as `c` times
`p1 · (partials of e1 at j) + p2 · (partials of e2 at j)`, whatever
partials `p1, p2` the node records. -/
theorem scan_record_bin {n : ℕ} (e1 e2 : Expr n) (hs1 : ScanSpec e1)
    (hs2 : ScanSpec e2) :
    ∀ (t : Tape) (vsf : Fin n → Var) (T : List Node) (a : ℕ → ℚ) (c p1 p2 : ℚ),
      (∀ i, (vsf i).index < t.nodes.length) →
      TExt T ((recordE e2 (recordE e1 t vsf).1 vsf).1.nodes
        ++ [⟨(p1, p2),
            ((recordE e1 t vsf).2.index,
              (recordE e2 (recordE e1 t vsf).1 vsf).2.index)⟩]) →
      (∀ m, t.nodes.length ≤ m →
        m < (recordE e2 (recordE e1 t vsf).1 vsf).1.nodes.length + 1 → a m = 0) →
      ∀ j, j < t.nodes.length →
        scanIdx T (revRange t.nodes.length
            ((recordE e2 (recordE e1 t vsf).1 vsf).1.nodes.length + 1))
          (bump a (recordE e2 (recordE e1 t vsf).1 vsf).1.nodes.length c) j
        = a j + c * ∑ i : Fin n,
            (if (vsf i).index = j
              then p1 * pdE e1 (fun k => (vsf k).v) i
                + p2 * pdE e2 (fun k => (vsf k).v) i
              else 0) := by
  intro t vsf T a c p1 p2 hvs hT hz j hj
  set i1 := (recordE e1 t vsf).2.index with hi1
  set i2 := (recordE e2 (recordE e1 t vsf).1 vsf).2.index with hi2
  set l0 := t.nodes.length with hl0
  set l1 := (recordE e1 t vsf).1.nodes.length with hl1
  set l2 := (recordE e2 (recordE e1 t vsf).1 vsf).1.nodes.length with hl2
  have hl01 : l0 ≤ l1 := recordE_len_le e1 t vsf
  have hl12 : l1 ≤ l2 := recordE_len_le e2 (recordE e1 t vsf).1 vsf
  have hvs0 : ∀ i, (vsf i).index < l0 := hvs
  have hvs1 : ∀ i, (vsf i).index < l1 := fun i => lt_of_lt_of_le (hvs0 i) hl01
  have ho1 : i1 < l1 := recordE_index_lt e1 t vsf hvs
  have ho2 : i2 < l2 := recordE_index_lt e2 (recordE e1 t vsf).1 vsf hvs1
  have hTnd : T.getD l2 Node.dflt = ⟨(p1, p2), (i1, i2)⟩ := TExt_getD_snoc _ hT
  have hText2 : TExt T (recordE e2 (recordE e1 t vsf).1 vsf).1.nodes :=
    TExt_snoc _ hT
  have hText1 : TExt T (recordE e1 t vsf).1.nodes :=
    TExt_trans hText2 (recordE_nodes_ext e2 (recordE e1 t vsf).1 vsf)
  have S1 : ∀ (b : ℕ → ℚ) (d : ℚ), (∀ m, l0 ≤ m → m < l1 → b m = 0) →
      ∀ j, j < l0 → scanIdx T (revRange l0 l1) (bump b i1 d) j
        = b j + d * ∑ i : Fin n,
            (if (vsf i).index = j then pdE e1 (fun k => (vsf k).v) i else 0) :=
    fun b d hb => hs1 t vsf T b d hvs hText1 hb
  have S2 : ∀ (b : ℕ → ℚ) (d : ℚ), (∀ m, l1 ≤ m → m < l2 → b m = 0) →
      ∀ j, j < l1 → scanIdx T (revRange l1 l2) (bump b i2 d) j
        = b j + d * ∑ i : Fin n,
            (if (vsf i).index = j then pdE e2 (fun k => (vsf k).v) i else 0) :=
    fun b d hb => hs2 (recordE e1 t vsf).1 vsf T b d hvs1 hText2 hb
  rw [sum_if_combine (fun i => (vsf i).index) j p1 p2]
  rw [revRange_append l0 l2 (l2 + 1) (le_trans hl01 hl12) (Nat.le_succ l2),
    revRange_singleton l2, revRange_append l0 l1 l2 hl01 hl12]
  rw [scanIdx_append T [l2], scanIdx_append T (revRange l1 l2)]
  have hsingle : scanIdx T [l2] (bump a l2 c)
      = stepFN ⟨(p1, p2), (i1, i2)⟩ (bump a l2 c) l2 := by
    show stepFN (T.getD l2 Node.dflt) (bump a l2 c) l2 = _
    rw [hTnd]
  rw [hsingle]
  have hA0l2 : bump a l2 c l2 = c := by
    rw [bump_apply, if_pos rfl, hz l2 (le_trans hl01 hl12) (Nat.lt_succ_self l2),
      zero_add]
  rw [stepFN_additive_lit p1 p2 i1 i2 (bump a l2 c) l2 (by omega) (by omega)]
  simp only [hA0l2]
  have hfun : (fun m => bump a l2 c m + (if m = i1 then p1 * c else 0)
        + (if m = i2 then p2 * c else 0))
      = bump (fun m => bump a l2 c m + (if m = i1 then p1 * c else 0)) i2
          (p2 * c) := by
    funext m
    show _ = if m = i2 then (bump a l2 c m + (if m = i1 then p1 * c else 0)) + p2 * c
      else bump a l2 c m + (if m = i1 then p1 * c else 0)
    by_cases hm : m = i2
    · rw [if_pos hm, if_pos hm]
    · rw [if_neg hm, if_neg hm, add_zero]
  rw [hfun]
  have hz2 : ∀ m, l1 ≤ m → m < l2 →
      (fun m => bump a l2 c m + (if m = i1 then p1 * c else 0)) m = 0 := by
    intro m hm1 hm2
    show bump a l2 c m + (if m = i1 then p1 * c else 0) = 0
    rw [bump_apply, if_neg (by omega : ¬ m = l2),
      hz m (by omega) (by omega), if_neg (by omega : ¬ m = i1), add_zero]
  have hS2 := S2 (fun m => bump a l2 c m + (if m = i1 then p1 * c else 0))
    (p2 * c) hz2
  have hA2z : ∀ m, l0 ≤ m → m < l1 →
      scanIdx T (revRange l1 l2)
        (bump (fun m => bump a l2 c m + (if m = i1 then p1 * c else 0)) i2
          (p2 * c)) m
      = if m = i1 then p1 * c else 0 := by
    intro m hm0 hm1
    rw [hS2 m hm1]
    show bump a l2 c m + (if m = i1 then p1 * c else 0) + _ = _
    rw [bump_apply, if_neg (by omega : ¬ m = l2), hz m (by omega) (by omega),
      zero_add]
    rw [sum_if_vanish (fun i => (vsf i).index) _ m (fun i => by
      show (vsf i).index ≠ m
      have := hvs0 i
      omega)]
    rw [mul_zero, add_zero]
  set A2 := scanIdx T (revRange l1 l2)
    (bump (fun m => bump a l2 c m + (if m = i1 then p1 * c else 0)) i2
      (p2 * c)) with hA2
  have hA2bump : A2 = bump (fun m => if m = i1 then A2 m - p1 * c else A2 m) i1
      (p1 * c) := by
    funext m
    show A2 m = if m = i1
      then (if m = i1 then A2 m - p1 * c else A2 m) + p1 * c
      else (if m = i1 then A2 m - p1 * c else A2 m)
    by_cases hm : m = i1
    · rw [if_pos hm, if_pos hm]
      ring
    · rw [if_neg hm, if_neg hm]
  have hz1 : ∀ m, l0 ≤ m → m < l1 →
      (fun m => if m = i1 then A2 m - p1 * c else A2 m) m = 0 := by
    intro m hm0 hm1
    show (if m = i1 then A2 m - p1 * c else A2 m) = 0
    by_cases hm : m = i1
    · rw [if_pos hm, hA2z m hm0 hm1, if_pos hm]
      ring
    · rw [if_neg hm, hA2z m hm0 hm1, if_neg hm]
  rw [hA2bump]
  rw [S1 (fun m => if m = i1 then A2 m - p1 * c else A2 m) (p1 * c) hz1 j hj]
  have hA2j : A2 j = a j + (if j = i1 then p1 * c else 0)
      + (p2 * c) * ∑ i : Fin n,
        (if (vsf i).index = j then pdE e2 (fun k => (vsf k).v) i else 0) := by
    rw [hS2 j (by omega)]
    show bump a l2 c j + (if j = i1 then p1 * c else 0) + _ = _
    rw [bump_apply, if_neg (by omega : ¬ j = l2)]
  by_cases hji : j = i1
  · rw [if_pos hji, hA2j, if_pos hji]
    ring
  · rw [if_neg hji, hA2j, if_neg hji]
    ring

/-- Every expression satisfies the reverse-scan / forward-derivative
correspondence. -/
theorem scan_recordE {n : ℕ} (e : Expr n) : ScanSpec e := by
  induction e with
  | input i0 => exact scan_record_input i0
  | add e1 e2 ih1 ih2 =>
      intro t vsf T a c hvs hT hz j hj
      have hnodes : (recordE (.add e1 e2) t vsf).1.nodes
          = (recordE e2 (recordE e1 t vsf).1 vsf).1.nodes
            ++ [⟨(1, 1), ((recordE e1 t vsf).2.index,
                (recordE e2 (recordE e1 t vsf).1 vsf).2.index)⟩] := rfl
      have hlen : (recordE (.add e1 e2) t vsf).1.nodes.length
          = (recordE e2 (recordE e1 t vsf).1 vsf).1.nodes.length + 1 := by
        rw [hnodes, List.length_append]
        rfl
      have hidx : (recordE (.add e1 e2) t vsf).2.index
          = (recordE e2 (recordE e1 t vsf).1 vsf).1.nodes.length := rfl
      rw [hnodes] at hT
      rw [hlen] at hz
      rw [hlen, hidx]
      have hbr : ∀ i : Fin n,
          (if (vsf i).index = j
            then pdE (.add e1 e2) (fun k => (vsf k).v) i else 0)
          = (if (vsf i).index = j
            then 1 * pdE e1 (fun k => (vsf k).v) i
              + 1 * pdE e2 (fun k => (vsf k).v) i else 0) := fun i => by
        by_cases h : (vsf i).index = j
        · rw [if_pos h, if_pos h, pdE_add]
          ring
        · rw [if_neg h, if_neg h]
      rw [Finset.sum_congr rfl (fun i _ => hbr i)]
      exact scan_record_bin e1 e2 ih1 ih2 t vsf T a c 1 1 hvs hT hz j hj
  | sub e1 e2 ih1 ih2 =>
      intro t vsf T a c hvs hT hz j hj
      have hnodes : (recordE (.sub e1 e2) t vsf).1.nodes
          = (recordE e2 (recordE e1 t vsf).1 vsf).1.nodes
            ++ [⟨(1, -1), ((recordE e1 t vsf).2.index,
                (recordE e2 (recordE e1 t vsf).1 vsf).2.index)⟩] := rfl
      have hlen : (recordE (.sub e1 e2) t vsf).1.nodes.length
          = (recordE e2 (recordE e1 t vsf).1 vsf).1.nodes.length + 1 := by
        rw [hnodes, List.length_append]
        rfl
      have hidx : (recordE (.sub e1 e2) t vsf).2.index
          = (recordE e2 (recordE e1 t vsf).1 vsf).1.nodes.length := rfl
      rw [hnodes] at hT
      rw [hlen] at hz
      rw [hlen, hidx]
      have hbr : ∀ i : Fin n,
          (if (vsf i).index = j
            then pdE (.sub e1 e2) (fun k => (vsf k).v) i else 0)
          = (if (vsf i).index = j
            then 1 * pdE e1 (fun k => (vsf k).v) i
              + (-1) * pdE e2 (fun k => (vsf k).v) i else 0) := fun i => by
        by_cases h : (vsf i).index = j
        · rw [if_pos h, if_pos h, pdE_sub]
          ring
        · rw [if_neg h, if_neg h]
      rw [Finset.sum_congr rfl (fun i _ => hbr i)]
      exact scan_record_bin e1 e2 ih1 ih2 t vsf T a c 1 (-1) hvs hT hz j hj
  | mul e1 e2 ih1 ih2 =>
      intro t vsf T a c hvs hT hz j hj
      have hnodes : (recordE (.mul e1 e2) t vsf).1.nodes
          = (recordE e2 (recordE e1 t vsf).1 vsf).1.nodes
            ++ [⟨((recordE e2 (recordE e1 t vsf).1 vsf).2.v,
                  (recordE e1 t vsf).2.v),
                ((recordE e1 t vsf).2.index,
                  (recordE e2 (recordE e1 t vsf).1 vsf).2.index)⟩] := rfl
      have hlen : (recordE (.mul e1 e2) t vsf).1.nodes.length
          = (recordE e2 (recordE e1 t vsf).1 vsf).1.nodes.length + 1 := by
        rw [hnodes, List.length_append]
        rfl
      have hidx : (recordE (.mul e1 e2) t vsf).2.index
          = (recordE e2 (recordE e1 t vsf).1 vsf).1.nodes.length := rfl
      rw [hnodes] at hT
      rw [hlen] at hz
      rw [hlen, hidx]
      have hbr : ∀ i : Fin n,
          (if (vsf i).index = j
            then pdE (.mul e1 e2) (fun k => (vsf k).v) i else 0)
          = (if (vsf i).index = j
            then (recordE e2 (recordE e1 t vsf).1 vsf).2.v
                * pdE e1 (fun k => (vsf k).v) i
              + (recordE e1 t vsf).2.v * pdE e2 (fun k => (vsf k).v) i
            else 0) := fun i => by
        by_cases h : (vsf i).index = j
        · rw [if_pos h, if_pos h, pdE_mul,
            ← recordE_val e2 (recordE e1 t vsf).1 vsf, ← recordE_val e1 t vsf]
          ring
        · rw [if_neg h, if_neg h]
      rw [Finset.sum_congr rfl (fun i _ => hbr i)]
      exact scan_record_bin e1 e2 ih1 ih2 t vsf T a c
        (recordE e2 (recordE e1 t vsf).1 vsf).2.v (recordE e1 t vsf).2.v
        hvs hT hz j hj
  | div e1 e2 ih1 ih2 =>
      intro t vsf T a c hvs hT hz j hj
      have hnodes : (recordE (.div e1 e2) t vsf).1.nodes
          = (recordE e2 (recordE e1 t vsf).1 vsf).1.nodes
            ++ [⟨(1 / (recordE e2 (recordE e1 t vsf).1 vsf).2.v,
                  -(recordE e1 t vsf).2.v
                    / ((recordE e2 (recordE e1 t vsf).1 vsf).2.v
                      * (recordE e2 (recordE e1 t vsf).1 vsf).2.v)),
                ((recordE e1 t vsf).2.index,
                  (recordE e2 (recordE e1 t vsf).1 vsf).2.index)⟩] := rfl
      have hlen : (recordE (.div e1 e2) t vsf).1.nodes.length
          = (recordE e2 (recordE e1 t vsf).1 vsf).1.nodes.length + 1 := by
        rw [hnodes, List.length_append]
        rfl
      have hidx : (recordE (.div e1 e2) t vsf).2.index
          = (recordE e2 (recordE e1 t vsf).1 vsf).1.nodes.length := rfl
      rw [hnodes] at hT
      rw [hlen] at hz
      rw [hlen, hidx]
      have hbr : ∀ i : Fin n,
          (if (vsf i).index = j
            then pdE (.div e1 e2) (fun k => (vsf k).v) i else 0)
          = (if (vsf i).index = j
            then (1 / (recordE e2 (recordE e1 t vsf).1 vsf).2.v)
                * pdE e1 (fun k => (vsf k).v) i
              + (-(recordE e1 t vsf).2.v
                  / ((recordE e2 (recordE e1 t vsf).1 vsf).2.v
                    * (recordE e2 (recordE e1 t vsf).1 vsf).2.v))
                * pdE e2 (fun k => (vsf k).v) i
            else 0) := fun i => by
        by_cases h : (vsf i).index = j
        · rw [if_pos h, if_pos h, pdE_div,
            ← recordE_val e2 (recordE e1 t vsf).1 vsf, ← recordE_val e1 t vsf]
          exact (div_pd_identity (recordE e1 t vsf).2.v
            (recordE e2 (recordE e1 t vsf).1 vsf).2.v
            (pdE e1 (fun k => (vsf k).v) i)
            (pdE e2 (fun k => (vsf k).v) i)).symm
        · rw [if_neg h, if_neg h]
      rw [Finset.sum_congr rfl (fun i _ => hbr i)]
      exact scan_record_bin e1 e2 ih1 ih2 t vsf T a c
        (1 / (recordE e2 (recordE e1 t vsf).1 vsf).2.v)
        (-(recordE e1 t vsf).2.v
          / ((recordE e2 (recordE e1 t vsf).1 vsf).2.v
            * (recordE e2 (recordE e1 t vsf).1 vsf).2.v))
        hvs hT hz j hj

theorem mkInputs_nodes_length :
    ∀ (xs : List ℚ) (t : Tape),
      (mkInputs t xs).1.nodes.length = t.nodes.length + xs.length := by
  intro xs
  induction xs with
  | nil => intro t; rfl
  | cons v rest ih =>
      intro t
      show (mkInputs (Tape.var t v).1 rest).1.nodes.length = _
      rw [ih (Tape.var t v).1]
      show ((t.nodes ++ [_]).length) + rest.length = _
      rw [List.length_append]
      simp only [List.length_cons, List.length_singleton, List.length_nil]
      omega

theorem mkInputs_ext :
    ∀ (xs : List ℚ) (t : Tape), TExt (mkInputs t xs).1.nodes t.nodes := by
  intro xs
  induction xs with
  | nil => intro t; exact TExt_refl t.nodes
  | cons v rest ih =>
      intro t
      exact TExt_trans (ih (Tape.var t v).1) ⟨_, rfl⟩

theorem mkInputs_nodes_getD :
    ∀ (xs : List ℚ) (t : Tape) (i : ℕ), i < xs.length →
      (mkInputs t xs).1.nodes.getD (t.nodes.length + i) Node.dflt
        = ⟨(0, 0), (t.nodes.length + i, t.nodes.length + i)⟩ := by
  intro xs
  induction xs with
  | nil => intro t i hi; simp at hi
  | cons v rest ih =>
      intro t i hi
      cases i with
      | zero =>
          rw [Nat.add_zero]
          have hpre : TExt (mkInputs (Tape.var t v).1 rest).1.nodes
              (Tape.var t v).1.nodes := mkInputs_ext rest (Tape.var t v).1
          have hlen1 : t.nodes.length < (Tape.var t v).1.nodes.length := by
            show t.nodes.length < (t.nodes ++ [_]).length
            rw [List.length_append]
            simp
          show (mkInputs (Tape.var t v).1 rest).1.nodes.getD t.nodes.length
              Node.dflt = _
          rw [TExt_getD hpre t.nodes.length hlen1]
          show (t.nodes
              ++ [(⟨(0, 0), (t.nodes.length, t.nodes.length)⟩ : Node)]).getD
              t.nodes.length Node.dflt = _
          rw [getD_append_length]
      | succ k =>
          have hlen1 : (Tape.var t v).1.nodes.length = t.nodes.length + 1 := by
            show (t.nodes ++ [_]).length = _
            rw [List.length_append]
            rfl
          have := ih (Tape.var t v).1 k (by simpa using hi)
          rw [hlen1] at this
          show (mkInputs (Tape.var t v).1 rest).1.nodes.getD
              (t.nodes.length + (k + 1)) Node.dflt = _
          have harith : t.nodes.length + (k + 1) = t.nodes.length + 1 + k := by
            omega
          rw [harith]
          exact this

theorem mkInputs_vars_getD :
    ∀ (xs : List ℚ) (t : Tape) (i : ℕ), i < xs.length →
      (mkInputs t xs).2.getD i ⟨0, 0⟩ = ⟨t.nodes.length + i, xs.getD i 0⟩ := by
  intro xs
  induction xs with
  | nil => intro t i hi; simp at hi
  | cons v rest ih =>
      intro t i hi
      cases i with
      | zero => rfl
      | succ k =>
          have hlen1 : (Tape.var t v).1.nodes.length = t.nodes.length + 1 := by
            show (t.nodes ++ [_]).length = _
            rw [List.length_append]
            rfl
          show (mkInputs (Tape.var t v).1 rest).2.getD k ⟨0, 0⟩ = _
          rw [ih (Tape.var t v).1 k (by simpa using hi), hlen1]
          have harith : t.nodes.length + 1 + k = t.nodes.length + (k + 1) := by
            omega
          rw [harith]
          rfl

theorem mkInputs_amendedInv :
    ∀ (xs : List ℚ) (t : Tape), AmendedInv t → AmendedInv (mkInputs t xs).1 := by
  intro xs
  induction xs with
  | nil => intro t h; exact h
  | cons v rest ih =>
      intro t h
      exact ih (Tape.var t v).1
        (amendedInv_append _ h (Or.inr (Or.inl ⟨rfl, rfl, rfl⟩)))

theorem recordE_amendedInv {n : ℕ} (e : Expr n) :
    ∀ (t : Tape) (vsf : Fin n → Var), AmendedInv t →
      (∀ i, (vsf i).index < t.nodes.length) →
      AmendedInv (recordE e t vsf).1 := by
  induction e with
  | input i0 => intro t vsf h _; exact h
  | add e1 e2 ih1 ih2 =>
      intro t vsf h hvs
      have hvs1 : ∀ i, (vsf i).index < (recordE e1 t vsf).1.nodes.length :=
        fun i => lt_of_lt_of_le (hvs i) (recordE_len_le e1 t vsf)
      exact amendedInv_append _
        (ih2 (recordE e1 t vsf).1 vsf (ih1 t vsf h hvs) hvs1)
        (Or.inl ⟨lt_of_lt_of_le (recordE_index_lt e1 t vsf hvs)
            (recordE_len_le e2 (recordE e1 t vsf).1 vsf),
          recordE_index_lt e2 (recordE e1 t vsf).1 vsf hvs1⟩)
  | sub e1 e2 ih1 ih2 =>
      intro t vsf h hvs
      have hvs1 : ∀ i, (vsf i).index < (recordE e1 t vsf).1.nodes.length :=
        fun i => lt_of_lt_of_le (hvs i) (recordE_len_le e1 t vsf)
      exact amendedInv_append _
        (ih2 (recordE e1 t vsf).1 vsf (ih1 t vsf h hvs) hvs1)
        (Or.inl ⟨lt_of_lt_of_le (recordE_index_lt e1 t vsf hvs)
            (recordE_len_le e2 (recordE e1 t vsf).1 vsf),
          recordE_index_lt e2 (recordE e1 t vsf).1 vsf hvs1⟩)
  | mul e1 e2 ih1 ih2 =>
      intro t vsf h hvs
      have hvs1 : ∀ i, (vsf i).index < (recordE e1 t vsf).1.nodes.length :=
        fun i => lt_of_lt_of_le (hvs i) (recordE_len_le e1 t vsf)
      exact amendedInv_append _
        (ih2 (recordE e1 t vsf).1 vsf (ih1 t vsf h hvs) hvs1)
        (Or.inl ⟨lt_of_lt_of_le (recordE_index_lt e1 t vsf hvs)
            (recordE_len_le e2 (recordE e1 t vsf).1 vsf),
          recordE_index_lt e2 (recordE e1 t vsf).1 vsf hvs1⟩)
  | div e1 e2 ih1 ih2 =>
      intro t vsf h hvs
      have hvs1 : ∀ i, (vsf i).index < (recordE e1 t vsf).1.nodes.length :=
        fun i => lt_of_lt_of_le (hvs i) (recordE_len_le e1 t vsf)
      exact amendedInv_append _
        (ih2 (recordE e1 t vsf).1 vsf (ih1 t vsf h hvs) hvs1)
        (Or.inl ⟨lt_of_lt_of_le (recordE_index_lt e1 t vsf hvs)
            (recordE_len_le e2 (recordE e1 t vsf).1 vsf),
          recordE_index_lt e2 (recordE e1 t vsf).1 vsf hvs1⟩)

theorem dualize_getD :
    ∀ (xs : List ℚ) (m : ℕ), m < xs.length →
      (dualize xs).getD m ⟨0, 0⟩ = ⟨xs.getD m 0, 0⟩ := by
  intro xs
  induction xs with
  | nil => intro m hm; simp at hm
  | cons v rest ih =>
      intro m hm
      cases m with
      | zero => rfl
      | succ k => exact ih k (by simpa using hm)

theorem setDv_dualize_getD :
    ∀ (xs : List ℚ) (k m : ℕ), m < xs.length →
      (setDv (dualize xs) k 1).getD m ⟨0, 0⟩
        = ⟨xs.getD m 0, if m = k then 1 else 0⟩ := by
  intro xs
  induction xs with
  | nil => intro k m hm; simp at hm
  | cons v rest ih =>
      intro k m hm
      cases k with
      | zero =>
          cases m with
          | zero => rfl
          | succ m' =>
              show (dualize rest).getD m' ⟨0, 0⟩ = _
              rw [dualize_getD rest m' (by simpa using hm)]
              rw [if_neg (by omega : ¬ m' + 1 = 0)]
              rfl
      | succ k' =>
          cases m with
          | zero =>
              rw [if_neg (by omega : ¬ 0 = k' + 1)]
              rfl
          | succ m' =>
              show (setDv (dualize rest) k' 1).getD m' ⟨0, 0⟩ = _
              rw [ih k' m' (by simpa using hm)]
              by_cases hmk : m' = k'
              · rw [if_pos hmk, if_pos (by omega : m' + 1 = k' + 1)]
                rfl
              · rw [if_neg hmk, if_neg (by omega : ¬ m' + 1 = k' + 1)]
                rfl

theorem get?_eq_some_getD {α : Type} (l : List α) (k : ℕ) (d : α)
    (h : k < l.length) : l.get? k = some (l.getD k d) := by
  rw [List.get?_eq_getElem?, List.getD_eq_getElem?_getD,
    List.getElem?_eq_getElem h]
  rfl

theorem ofFn_getD {n : ℕ} (f : Fin n → ℚ) (k : Fin n) :
    (List.ofFn f).getD k.val 0 = f k := by
  rw [List.getD_eq_getElem?_getD,
    List.getElem?_eq_getElem (by rw [List.length_ofFn]; exact k.isLt)]
  simp

/-- C1: cross-mode consistency. For every arithmetic expression built
from the operations supported in both modes (`+ - * /` over input
variables) and every input variable `i`, recording the inputs and the
expression on a fresh tape and running `backprop` on the output, the
adjoint returned by `Grad.wrt` for input `i` equals the forward-mode
gradient component `i` of the same expression at the same point (exactly,
in the `ℚ` model of `f64`). -/
theorem reverse_forward_consistency (n : ℕ) (e : Expr n) (x0 : Fin n → ℚ)
    (i : Fin n) :
    Grad.wrt
      (Var.backprop
        (recordE e (mkInputs ⟨[]⟩ (List.ofFn x0)).1
          (fun k => (mkInputs ⟨[]⟩ (List.ofFn x0)).2.getD (k : ℕ) ⟨0, 0⟩)).2
        (recordE e (mkInputs ⟨[]⟩ (List.ofFn x0)).1
          (fun k => (mkInputs ⟨[]⟩ (List.ofFn x0)).2.getD (k : ℕ) ⟨0, 0⟩)).1)
      ((mkInputs ⟨[]⟩ (List.ofFn x0)).2.getD (i : ℕ) ⟨0, 0⟩)
    = some ((gradient
        (fun xs => evalDualE e (fun j => xs.getD (j : ℕ) ⟨0, 0⟩))
        (List.ofFn x0)).getD (i : ℕ) 0) := by
  set S := mkInputs ⟨[]⟩ (List.ofFn x0) with hSdef
  set vsF : Fin n → Var := fun k => S.2.getD (k : ℕ) ⟨0, 0⟩ with hvsFdef
  have hSlen : S.1.nodes.length = n := by
    rw [hSdef, mkInputs_nodes_length]
    show 0 + (List.ofFn x0).length = n
    rw [List.length_ofFn]
    omega
  have hvarsk : ∀ k : Fin n, vsF k = ⟨(k : ℕ), x0 k⟩ := by
    intro k
    show S.2.getD (k : ℕ) ⟨0, 0⟩ = _
    rw [hSdef, mkInputs_vars_getD (List.ofFn x0) ⟨[]⟩ (k : ℕ)
      (by rw [List.length_ofFn]; exact k.isLt)]
    show Var.mk (0 + (k : ℕ)) ((List.ofFn x0).getD (k : ℕ) 0) = _
    rw [ofFn_getD x0 k, Nat.zero_add]
  have hvs : ∀ k, (vsF k).index < S.1.nodes.length := by
    intro k
    rw [hvarsk k, hSlen]
    exact k.isLt
  have hvals : (fun k => (vsF k).v) = x0 := funext (fun k => by rw [hvarsk k])
  have hSleaf : ∀ m, m < n → S.1.nodes.getD m Node.dflt = ⟨(0, 0), (m, m)⟩ := by
    intro m hm
    have h := mkInputs_nodes_getD (List.ofFn x0) ⟨[]⟩ m
      (by rw [List.length_ofFn]; exact hm)
    have h0 : (Tape.mk []).nodes.length = 0 := rfl
    rw [h0, Nat.zero_add] at h
    rw [hSdef]
    exact h
  have hSinv : AmendedInv S.1 := by
    rw [hSdef]
    refine mkInputs_amendedInv (List.ofFn x0) ⟨[]⟩ ?_
    intro m hm
    exact absurd hm (Nat.not_lt_zero m)
  have hinv2 : AmendedInv (recordE e S.1 vsF).1 :=
    recordE_amendedInv e S.1 vsF hSinv hvs
  have hout : (recordE e S.1 vsF).2.index < (recordE e S.1 vsF).1.nodes.length :=
    recordE_index_lt e S.1 vsF hvs
  have hLn : n ≤ (recordE e S.1 vsF).1.nodes.length := by
    have := recordE_len_le e S.1 vsF
    omega
  have hgrad : (gradient
      (fun xs => evalDualE e (fun j => xs.getD (j : ℕ) ⟨0, 0⟩))
      (List.ofFn x0)).getD (i : ℕ) 0 = pdE e x0 i := by
    rw [gradient_getD _ (List.ofFn x0) (i : ℕ)
      (by rw [List.length_ofFn]; exact i.isLt)]
    show (evalDualE e (fun j =>
      (setDv (dualize (List.ofFn x0)) (i : ℕ) 1).getD (j : ℕ) ⟨0, 0⟩)).dv = _
    have hfeq : (fun j : Fin n =>
        (setDv (dualize (List.ofFn x0)) (i : ℕ) 1).getD (j : ℕ) ⟨0, 0⟩)
        = seedF x0 i := by
      funext j
      rw [setDv_dualize_getD (List.ofFn x0) (i : ℕ) (j : ℕ)
        (by rw [List.length_ofFn]; exact j.isLt)]
      show DualScalar.mk ((List.ofFn x0).getD (j : ℕ) 0)
          (if (j : ℕ) = (i : ℕ) then 1 else 0)
        = DualScalar.mk (x0 j) (if j = i then 1 else 0)
      rw [ofFn_getD x0 j]
      by_cases hji : j = i
      · rw [if_pos hji, if_pos (by rw [hji])]
      · rw [if_neg hji, if_neg (fun h => hji (Fin.ext h))]
    rw [hfeq]
    rfl
  have hrev : (Var.backprop (recordE e S.1 vsF).2
      (recordE e S.1 vsF).1).grad.getD (i : ℕ) 0 = pdE e x0 i := by
    rw [backprop_getD_eq_scan (recordE e S.1 vsF).1 (recordE e S.1 vsF).2
      hout hinv2 (i : ℕ)]
    rw [← revRange_zero]
    rw [revRange_append 0 n (recordE e S.1 vsF).1.nodes.length
      (Nat.zero_le n) hLn]
    rw [scanIdx_append]
    have hseed : (fun m => if m = (recordE e S.1 vsF).2.index
        then (1 : ℚ) else 0)
        = bump (fun _ => 0) (recordE e S.1 vsF).2.index 1 := by
      funext m
      rw [bump_apply]
      by_cases hm : m = (recordE e S.1 vsF).2.index
      · rw [if_pos hm, if_pos hm, zero_add]
      · rw [if_neg hm, if_neg hm]
    rw [hseed]
    rw [scanIdx_leaves (recordE e S.1 vsF).1.nodes (revRange 0 n) _
      (fun idx hidx => by
        have hb := mem_revRange hidx
        rw [TExt_getD (recordE_nodes_ext e S.1 vsF) idx
          (by rw [hSlen]; exact hb.2)]
        rw [hSleaf idx hb.2])]
    have hmain := scan_recordE e S.1 vsF (recordE e S.1 vsF).1.nodes
      (fun _ => 0) 1 hvs (TExt_refl _) (fun m _ _ => rfl)
    rw [hSlen] at hmain
    rw [hmain (i : ℕ) i.isLt]
    show (0 : ℚ) + 1 * _ = _
    rw [zero_add, one_mul, hvals]
    rw [Finset.sum_eq_single i]
    · rw [hvarsk i]
      show (if (i : ℕ) = (i : ℕ) then pdE e x0 i else 0) = pdE e x0 i
      rw [if_pos rfl]
    · intro k _ hki
      rw [hvarsk k]
      show (if (k : ℕ) = (i : ℕ) then pdE e x0 k else 0) = 0
      rw [if_neg (fun h => hki (Fin.ext h))]
    · intro h
      exact absurd (Finset.mem_univ i) h
  have hfold : S.2.getD (i : ℕ) ⟨0, 0⟩ = vsF i := rfl
  rw [hfold]
  have hwrt : Grad.wrt
      (Var.backprop (recordE e S.1 vsF).2 (recordE e S.1 vsF).1) (vsF i)
      = some (pdE e x0 i) := by
    unfold Grad.wrt
    rw [hvarsk i]
    show (Var.backprop (recordE e S.1 vsF).2
        (recordE e S.1 vsF).1).grad.get? (i : ℕ) = _
    rw [get?_eq_some_getD _ (i : ℕ) 0
      (by rw [backprop_grad_length]; exact lt_of_lt_of_le i.isLt hLn)]
    rw [hrev]
  rw [hwrt, hgrad]

end Diffomatic
